import Mathlib

set_option maxHeartbeats 1000000

/-!
Verification development for the rxq repository: the document model,
the XPath-like query engine, the formatter/JSON conversion, and the
browser front-end's document-loading logic (`App.tsx`).

The Rust core (`rxq-core`) is not part of the checked-in sources here;
every definition for it is modelled from the specification (marked
`Modelled from the spec:`).  The TypeScript front-end (`loadFile`,
`cleanupDoc`, type detection) is translated directly from `App.tsx`.
-/

namespace Rxq

/-- Modelled from the spec: the parse-tree node variants of the document
model (§3).  An `elem` node carries a tag name, an ordered
attribute-name/value list, and an ordered child list; `txt` carries
character data; `com` is a comment (never traversed by default queries).
Doctype/metadata nodes are omitted from the model: the spec makes them
opaque and formatting-only, and no claim concerns them. -/
inductive PTree where
  | elem (tag : String) (attrs : List (String × String)) (kids : List PTree)
  | txt (s : String)
  | com (s : String)

/-- The children of a node: the child list of an element, empty otherwise. -/
def kids : PTree → List PTree
  | .elem _ _ ks => ks
  | _ => []

/-- Whether a node is an Element. -/
def isElem : PTree → Bool
  | .elem _ _ _ => true
  | _ => false

/-- Whether a node is a Text node. -/
def isText : PTree → Bool
  | .txt _ => true
  | _ => false

/-- `NodeRef.attribute(name)` of the spec (§4.1): first attribute with the
given name, compared by exact string equality (no normalization). -/
def getAttr : PTree → String → Option String
  | .elem _ attrs _, name => (attrs.find? (fun kv => kv.1 == name)).map (fun kv => kv.2)
  | _, _ => none

/-- Number of nodes of a forest. -/
def sizeL : List PTree → Nat
  | [] => 0
  | .elem _ _ ks :: ts => 1 + sizeL ks + sizeL ts
  | _ :: ts => 1 + sizeL ts

/-- Number of nodes of a tree. -/
def size (t : PTree) : Nat := sizeL [t]

/-- Modelled from the spec: node indices are assigned in document order
during the single construction pass (§3).  `preF n ts` lists the nodes of
the forest `ts` in document (preorder) order, paired with their arena
indices, the first node receiving index `n`. -/
def preF : Nat → List PTree → List (Nat × PTree)
  | _, [] => []
  | n, PTree.elem tg a ks :: ts =>
      (n, PTree.elem tg a ks) ::
        (preF (n + 1) ks ++ preF (n + sizeL [PTree.elem tg a ks]) ts)
  | n, t :: ts => (n, t) :: preF (n + 1) ts

/-- All nodes of a document with their indices, in document order; the
root has index 0. -/
def docNodes (d : PTree) : List (Nat × PTree) := preF 0 [d]

/-- The children of an indexed node, each paired with its arena index
(a node at index `n` is followed by its first child at `n + 1`, and each
later child follows the whole subtree of the previous one). -/
def ikids : Nat → List PTree → List (Nat × PTree)
  | _, [] => []
  | n, t :: ts => (n, t) :: ikids (n + size t) ts

/-- Indexed children of an indexed node. -/
def ichildren (p : Nat × PTree) : List (Nat × PTree) := ikids (p.1 + 1) (kids p.2)

/-- Descendant-or-self traversal of an indexed node, in document order. -/
def descSelf (p : Nat × PTree) : List (Nat × PTree) := preF p.1 [p.2]

/-- ASCII whitespace. -/
def isWs (c : Char) : Bool := c == ' ' || c == '\n' || c == '\t' || c == '\r'

/-- Trim leading and trailing whitespace of a character list. -/
def trimChars (cs : List Char) : List Char :=
  List.rdropWhile isWs (cs.dropWhile isWs)

/-- JavaScript `String.prototype.trim`, over the character data. -/
def jsTrim (s : String) : String := String.mk (trimChars s.data)

/-- JavaScript `String.prototype.startsWith`, over the character data. -/
def jsStartsWith (s pre : String) : Bool := pre.data.isPrefixOf s.data

/-- JavaScript `String.prototype.endsWith`, over the character data. -/
def jsEndsWith (s suf : String) : Bool := suf.data.isSuffixOf s.data

/-- From `App.tsx` `loadFile` (src/unnamed/part_003): document-type
detection.  The variable starts as `xml`, is overwritten to `html` when
the trimmed text starts with `<html` or the name ends in `.html`, and is
then overwritten to `json` when the trimmed text starts with a left brace
or the name ends in `.json`. -/
def detectType (text name : String) : String :=
  let t0 := "xml"
  let t1 := if jsStartsWith (jsTrim text) "<html" || jsEndsWith name ".html" then "html" else t0
  let t2 := if jsStartsWith (jsTrim text) "\x7b" || jsEndsWith name ".json" then "json" else t1
  t2

/-- Modelled from the spec: the query-error taxonomy (§4.2/§7).
`invalid p` models `QueryError::InvalidSyntax(position)`;
`unsupportedFeature` models `QueryError::UnsupportedFeature`. -/
inductive QueryError where
  | invalid (pos : Nat)
  | unsupportedFeature
  deriving DecidableEq, Repr

/-- Modelled from the spec: the traversal relation of a step — direct
child (`/`) or descendant-or-self (`//`). -/
inductive Axis where
  | child
  | descOrSelf
  deriving DecidableEq, Repr

/-- Modelled from the spec: the node test of a step — a tag name or `*`. -/
inductive NodeTest where
  | tagTest (s : String)
  | anyElem
  deriving DecidableEq, Repr

/-- Modelled from the spec: one attribute-equality predicate `[@name='value']`. -/
structure APred where
  name : String
  value : String
  deriving DecidableEq, Repr

/-- Modelled from the spec: one compiled node-selecting step. -/
structure Step where
  axis : Axis
  test : NodeTest
  preds : List APred
  deriving DecidableEq, Repr

/-- Modelled from the spec: a value-selecting final step, `@name` or `text()`. -/
inductive FinalSel where
  | attrSel (name : String)
  | textSel
  deriving DecidableEq, Repr

/-- Modelled from the spec: a compiled path query — node steps followed by
an optional final value-selecting step with its own axis. -/
structure PathQuery where
  steps : List Step
  final : Option (Axis × FinalSel)
  deriving DecidableEq, Repr

/-- Characters allowed in tag and attribute names in a path expression. -/
def isNameChar (c : Char) : Bool :=
  c.isAlphanum || c == '_' || c == '-' || c == ':' || c == '.'

/-- The single-quote character delimiting predicate values. -/
def squote : Char := Char.ofNat 39

/-- Modelled from the spec: parsing of the bracketed predicate list of a
step, `[@name='value']*` (§4.2).  Attribute equality only; any other
predicate shape is `InvalidSyntax` at the offending position, reported at
compile time.  Returns the predicates together with the updated position
and the unconsumed input. -/
def parsePreds (fuel : Nat) (pos : Nat) (cs : List Char) (acc : List APred) :
    Except QueryError (List APred × Nat × List Char) :=
  match fuel with
  | 0 => .error (.invalid pos)
  | fuel + 1 =>
    match cs with
    | '[' :: rest =>
      match rest with
      | '@' :: rest2 =>
        let nm := rest2.takeWhile isNameChar
        let rest3 := rest2.dropWhile isNameChar
        if nm.isEmpty then .error (.invalid (pos + 2)) else
        let p3 := pos + 2 + nm.length
        match rest3 with
        | '=' :: rest4 =>
          match rest4 with
          | q :: rest5 =>
            if q == squote then
              let vl := rest5.takeWhile (fun c => !(c == squote))
              let rest6 := rest5.dropWhile (fun c => !(c == squote))
              let p6 := p3 + 2 + vl.length
              match rest6 with
              | _ :: rest7 =>
                match rest7 with
                | ']' :: rest8 =>
                    parsePreds fuel (p6 + 2) rest8 (acc ++ [⟨String.mk nm, String.mk vl⟩])
                | _ => .error (.invalid (p6 + 1))
              | [] => .error (.invalid p6)
            else .error (.invalid (p3 + 1))
          | [] => .error (.invalid (p3 + 1))
        | _ => .error (.invalid p3)
      | _ => .error (.invalid (pos + 1))
    | _ => .ok (acc, pos, cs)

/-- Modelled from the spec: compilation of a path expression (§4.2).
Steps are separated by `/`; `//` selects the descendant-or-self axis and
`/` the child axis; a step is a tag name or `*` with optional predicates;
a final step may be `@name` or `text()`.  A name followed by `()` other
than `text` is `UnsupportedFeature`; every other malformed shape is
`InvalidSyntax` with its position.  Compilation consumes the whole
expression before any node is visited. -/
def parseSteps (fuel : Nat) (pos : Nat) (cs : List Char) (acc : List Step) :
    Except QueryError PathQuery :=
  match fuel with
  | 0 => .error (.invalid pos)
  | fuel + 1 =>
    let axh : Axis × Nat × List Char :=
      match cs with
      | '/' :: '/' :: rest => (Axis.descOrSelf, pos + 2, rest)
      | '/' :: rest => (Axis.child, pos + 1, rest)
      | rest => (Axis.child, pos, rest)
    let ax := axh.1
    let pos1 := axh.2.1
    let cs1 := axh.2.2
    match cs1 with
    | [] => .error (.invalid pos1)
    | '@' :: rest =>
      let nm := rest.takeWhile isNameChar
      let rest2 := rest.dropWhile isNameChar
      if nm.isEmpty then .error (.invalid (pos1 + 1))
      else if rest2.isEmpty then .ok ⟨acc, some (ax, .attrSel (String.mk nm))⟩
      else .error (.invalid (pos1 + 1 + nm.length))
    | '*' :: rest =>
      match parsePreds fuel (pos1 + 1) rest [] with
      | .error e => .error e
      | .ok (preds, pos2, cs2) =>
        match cs2 with
        | [] => .ok ⟨acc ++ [⟨ax, .anyElem, preds⟩], none⟩
        | '/' :: _ => parseSteps fuel pos2 cs2 (acc ++ [⟨ax, .anyElem, preds⟩])
        | _ => .error (.invalid pos2)
    | c :: _ =>
      if isNameChar c then
        let nm := cs1.takeWhile isNameChar
        let rest2 := cs1.dropWhile isNameChar
        match rest2 with
        | '(' :: ')' :: rest3 =>
          if nm = ['t', 'e', 'x', 't'] then
            if rest3.isEmpty then .ok ⟨acc, some (ax, .textSel)⟩
            else .error (.invalid (pos1 + nm.length + 2))
          else .error .unsupportedFeature
        | _ =>
          match parsePreds fuel (pos1 + nm.length) rest2 [] with
          | .error e => .error e
          | .ok (preds, pos2, cs2) =>
            match cs2 with
            | [] => .ok ⟨acc ++ [⟨ax, .tagTest (String.mk nm), preds⟩], none⟩
            | '/' :: _ => parseSteps fuel pos2 cs2 (acc ++ [⟨ax, .tagTest (String.mk nm), preds⟩])
            | _ => .error (.invalid pos2)
      else .error (.invalid pos1)

/-- Modelled from the spec: `compile_query(expr, Path)` (§6).  The whole
expression is compiled up front; evaluation starts only from a
successfully compiled query. -/
def compileQ (e : String) : Except QueryError PathQuery :=
  parseSteps (e.length + 1) 0 e.data []

/-- Whether a node passes a step's node test. -/
def testHolds : NodeTest → PTree → Bool
  | .tagTest s, .elem tg _ _ => tg == s
  | .anyElem, .elem _ _ _ => true
  | _, _ => false

/-- Modelled from the spec: an attribute predicate `[@a='v']` holds of a
node iff the node has attribute `a` and its value is exactly equal to `v`
(byte-for-byte: `String` equality on the exact character data, no
whitespace normalization, case-sensitive). -/
def predHolds (t : PTree) (pr : APred) : Bool :=
  getAttr t pr.name == some pr.value

/-- A step admits a node iff the node test holds and every predicate holds. -/
def admits (st : Step) (t : PTree) : Bool :=
  testHolds st.test t && st.preds.all (predHolds t)

/-- The candidate nodes a step examines from a context node, in document
order: the children for `/`, the descendant-or-self nodes for `//`. -/
def candidates : Axis → (Nat × PTree) → List (Nat × PTree)
  | .child, p => ichildren p
  | .descOrSelf, p => descSelf p

/-- Modelled from the spec: the denotation of evaluating the node steps of
a compiled query from a context node — each step filters its axis
candidates by test and predicates and feeds them to the next step.  The
lazy machine `machineRun` below produces exactly this list. -/
def evalSteps : List Step → (Nat × PTree) → List (Nat × PTree)
  | [], p => [p]
  | st :: rest, p =>
      ((candidates st.axis p).filter (fun q => admits st q.2)).flatMap
        (fun q => evalSteps rest q)

/-- A query result: a node reference (with its arena index) or an
extracted string value. -/
inductive QRes where
  | nodeR (idx : Nat) (t : PTree)
  | valR (s : String)

/-- Modelled from the spec: evaluation of a final `@name` or `text()`
step against one node yielded by the node steps. -/
def evalFinal (ax : Axis) (f : FinalSel) (p : Nat × PTree) : List String :=
  match f with
  | .attrSel nm =>
      let cands : List (Nat × PTree) :=
        match ax with
        | .child => [p]
        | .descOrSelf => descSelf p
      cands.filterMap (fun q => getAttr q.2 nm)
  | .textSel =>
      let cands : List (Nat × PTree) :=
        match ax with
        | .child => ichildren p
        | .descOrSelf => descSelf p
      cands.filterMap (fun q =>
        match q.2 with
        | PTree.txt s => some s
        | _ => none)

/-- Full evaluation of a compiled query against a scope node. -/
def evalQuery (q : PathQuery) (p : Nat × PTree) : List QRes :=
  let ns := evalSteps q.steps p
  match q.final with
  | none => ns.map (fun x => QRes.nodeR x.1 x.2)
  | some af => ns.flatMap (fun x => (evalFinal af.1 af.2 x).map QRes.valR)

/-- End-to-end query: compile, then evaluate from the document root.
When compilation fails no evaluation happens and no results exist. -/
def runQuery (e : String) (d : PTree) : Except QueryError (List QRes) :=
  (compileQ e).map (fun q => evalQuery q (0, d))

/-- Modelled from the spec: the lazy evaluation machine (§4.2) —
evaluation state is a stack of (pending node, remaining steps) frames;
each iteration pops a frame, emits the node when no steps remain, and
otherwise pushes the admitted candidates of the next step.  `fuel` bounds
the number of iterations; `costStack` below computes a sufficient bound. -/
def machineRun : Nat → List ((Nat × PTree) × List Step) → List (Nat × PTree)
  | 0, _ => []
  | _ + 1, [] => []
  | fuel + 1, (p, []) :: stk => p :: machineRun fuel stk
  | fuel + 1, (p, st :: rest) :: stk =>
      machineRun fuel
        (((candidates st.axis p).filter (fun q => admits st q.2)).map
          (fun q => (q, rest)) ++ stk)

/-- Number of machine iterations needed to exhaust one frame. -/
def costS : List Step → (Nat × PTree) → Nat
  | [], _ => 1
  | st :: rest, p =>
      1 + (((candidates st.axis p).filter (fun q => admits st q.2)).map
        (fun q => costS rest q)).sum

/-- Number of machine iterations needed to exhaust a stack. -/
def costStack (stk : List ((Nat × PTree) × List Step)) : Nat :=
  (stk.map (fun f => costS f.2 f.1)).sum

/-- Modelled from the spec: `CompiledQuery.evaluate` for node results —
run the lazy machine from a single initial frame to exhaustion. -/
def evaluateNodes (q : PathQuery) (p : Nat × PTree) : List (Nat × PTree) :=
  machineRun (costStack [(p, q.steps)]) [(p, q.steps)]

/-- Modelled from the spec: `ParseError{reason, byte_offset}` (§4.1/§7). -/
structure ParseError where
  reason : String
  byte_offset : Nat
  deriving DecidableEq, Repr

/-- Modelled from the spec: the declared document kind, one of Xml or Html
(§4.1); it selects only the strictness policy of the shared tokenizer. -/
inductive DocKind where
  | xml
  | html
  deriving DecidableEq, Repr

/-- Characters that may continue an entity name after `&`. -/
def entChar (c : Char) : Bool := c.isAlphanum || c == '#'

/-- Modelled from the spec: the entity names the strict mode accepts —
the five predefined XML entities and decimal character references. -/
def validEntName (cs : List Char) : Bool :=
  cs == ['a', 'm', 'p'] || cs == ['l', 't'] || cs == ['g', 't'] ||
  cs == ['q', 'u', 'o', 't'] || cs == ['a', 'p', 'o', 's'] ||
  (match cs with
   | '#' :: ds => !ds.isEmpty && ds.all Char.isDigit
   | _ => false)

/-- Scan character data for an invalid entity: every `&` must be followed
by a valid entity name and `;`.  Returns the offset of the first bad `&`,
or `none`.  Entities are validated, never decoded (the model, like the
implementation, is zero-copy and keeps raw character data).  `fuel`
bounds the iterations; the wrapper below supplies enough for the input. -/
def findBadEntityGo : Nat → List Char → Option Nat
  | 0, _ => none
  | _ + 1, [] => none
  | fuel + 1, c :: rest =>
    if c == '&' then
      let nm := rest.takeWhile entChar
      match rest.dropWhile entChar with
      | ';' :: rest3 =>
          if validEntName nm then (findBadEntityGo fuel rest3).map (fun k => k + nm.length + 2)
          else some 0
      | _ => some 0
    else (findBadEntityGo fuel rest).map (fun k => k + 1)

/-- Entity scan of a whole chunk (enough fuel for its length). -/
def findBadEntity (cs : List Char) : Option Nat := findBadEntityGo (cs.length + 1) cs

/-- A token produced by the shared tokenizer: an open tag with its
attributes, a close tag, or a (trimmed, non-empty) text chunk. -/
inductive Tok where
  | openT (tag : String) (attrs : List (String × String))
  | closeT (tag : String)
  | textT (s : String)
  deriving DecidableEq, Repr

/-- Modelled from the spec: attribute insertion — names are unique per
element, insertion order is preserved, and last write wins when the
source duplicates an attribute name (§3). -/
def insertAttr (acc : List (String × String)) (k v : String) : List (String × String) :=
  if acc.any (fun kv => kv.1 == k) then
    acc.map (fun kv => if kv.1 == k then (kv.1, v) else kv)
  else acc ++ [(k, v)]

/-- Modelled from the spec: parsing of the attribute region of an open
tag, up to and including the closing `>`.  In strict (Xml) mode a
truncated or malformed tag is a `ParseError`; in lenient (Html) mode the
malformed remainder is skipped and never fails.  Returns the attributes,
the updated byte offset, and the unconsumed input. -/
def parseAttrs (strict : Bool) : Nat → Nat → List Char → List (String × String) →
    Except ParseError (List (String × String) × Nat × List Char)
  | 0, pos, _, acc => if strict then .error ⟨"unterminated tag", pos⟩ else .ok (acc, pos, [])
  | fuel + 1, pos, cs, acc =>
    let ws := cs.takeWhile isWs
    let cs1 := cs.dropWhile isWs
    let pos1 := pos + ws.length
    match cs1 with
    | [] => if strict then .error ⟨"unterminated tag", pos1⟩ else .ok (acc, pos1, [])
    | '>' :: rest => .ok (acc, pos1 + 1, rest)
    | c :: _ =>
      if isNameChar c then
        let nm := cs1.takeWhile isNameChar
        let cs2 := cs1.dropWhile isNameChar
        let pos2 := pos1 + nm.length
        match cs2 with
        | '=' :: '"' :: rest =>
          let vl := rest.takeWhile (fun ch => !(ch == '"'))
          let cs3 := rest.dropWhile (fun ch => !(ch == '"'))
          let pos3 := pos2 + 2 + vl.length
          match cs3 with
          | '"' :: rest2 =>
              parseAttrs strict fuel (pos3 + 1) rest2 (insertAttr acc (String.mk nm) (String.mk vl))
          | _ => if strict then .error ⟨"unterminated tag", pos3⟩ else .ok (acc, pos3, [])
        | _ =>
          if strict then .error ⟨"malformed tag", pos2⟩
          else
            let sk := cs2.takeWhile (fun ch => !(ch == '>'))
            let cs3 := cs2.dropWhile (fun ch => !(ch == '>'))
            match cs3 with
            | '>' :: rest2 => .ok (acc, pos2 + sk.length + 1, rest2)
            | _ => .ok (acc, pos2 + sk.length, [])
      else
        if strict then .error ⟨"malformed tag", pos1⟩
        else
          let sk := cs1.takeWhile (fun ch => !(ch == '>'))
          let cs3 := cs1.dropWhile (fun ch => !(ch == '>'))
          match cs3 with
          | '>' :: rest2 => .ok (acc, pos1 + sk.length + 1, rest2)
          | _ => .ok (acc, pos1 + sk.length, [])

/-- Modelled from the spec: the shared character-level tokenizer.  The
`strict` flag is the only difference between Xml and Html handling: in
strict mode structural damage (truncated or malformed markup, invalid
entities) is a `ParseError` with its byte offset; in lenient mode the
damaged region is skipped or kept as text and tokenizing never fails.
Text chunks are trimmed of surrounding insignificant whitespace and
dropped when empty.  Each token carries its byte offset. -/
def tokenizeGo (strict : Bool) : Nat → Nat → List Char → Except ParseError (List (Nat × Tok))
  | 0, pos, _ => if strict then .error ⟨"unterminated tag", pos⟩ else .ok []
  | fuel + 1, pos, cs =>
    match cs with
    | [] => .ok []
    | '<' :: rest =>
      match rest with
      | '/' :: rest2 =>
        let nm := rest2.takeWhile isNameChar
        let rest3 := rest2.dropWhile isNameChar
        if nm.isEmpty then
          if strict then .error ⟨"malformed tag", pos⟩
          else
            let sk := rest2.takeWhile (fun ch => !(ch == '>'))
            let rest4 := rest2.dropWhile (fun ch => !(ch == '>'))
            match rest4 with
            | _ :: rest5 => tokenizeGo strict fuel (pos + 2 + sk.length + 1) rest5
            | [] => .ok []
        else
          match rest3 with
          | '>' :: rest4 =>
            match tokenizeGo strict fuel (pos + 3 + nm.length) rest4 with
            | .error e => .error e
            | .ok toks => .ok ((pos, Tok.closeT (String.mk nm)) :: toks)
          | _ =>
            if strict then .error ⟨"malformed tag", pos + 2 + nm.length⟩
            else
              let sk := rest3.takeWhile (fun ch => !(ch == '>'))
              let rest4 := rest3.dropWhile (fun ch => !(ch == '>'))
              match rest4 with
              | _ :: rest5 =>
                  tokenizeGo strict fuel (pos + 2 + nm.length + sk.length + 1) rest5
              | [] => .ok []
      | _ =>
        let nm := rest.takeWhile isNameChar
        let rest2 := rest.dropWhile isNameChar
        if nm.isEmpty then
          if strict then .error ⟨"malformed tag", pos⟩
          else
            let sk := rest.takeWhile (fun ch => !(ch == '>'))
            let rest4 := rest.dropWhile (fun ch => !(ch == '>'))
            match rest4 with
            | _ :: rest5 => tokenizeGo strict fuel (pos + 1 + sk.length + 1) rest5
            | [] => .ok []
        else
          match parseAttrs strict (rest2.length + 1) (pos + 1 + nm.length) rest2 [] with
          | .error e => .error e
          | .ok (attrs, pos2, rest3) =>
            match tokenizeGo strict fuel pos2 rest3 with
            | .error e => .error e
            | .ok toks => .ok ((pos, Tok.openT (String.mk nm) attrs) :: toks)
    | _ =>
      let chunk := cs.takeWhile (fun ch => !(ch == '<'))
      let rest := cs.dropWhile (fun ch => !(ch == '<'))
      match (if strict then findBadEntity chunk else none) with
      | some k => .error ⟨"invalid entity", pos + k⟩
      | none =>
        let t := trimChars chunk
        if t.isEmpty then tokenizeGo strict fuel (pos + chunk.length) rest
        else
          match tokenizeGo strict fuel (pos + chunk.length) rest with
          | .error e => .error e
          | .ok toks => .ok ((pos, Tok.textT (String.mk t)) :: toks)

/-- Tokenize a whole input (enough fuel for its length). -/
def tokenize (strict : Bool) (pos : Nat) (cs : List Char) :
    Except ParseError (List (Nat × Tok)) :=
  tokenizeGo strict (cs.length + 1) pos cs

/-- A frame of the tree builder: an open element waiting for its close
tag, with the byte offset of its open tag and the sibling list saved
from the enclosing level. -/
structure BFrame where
  tag : String
  attrs : List (String × String)
  openPos : Nat
  saved : List PTree

/-- Close every still-open frame (the lenient auto-close at end of input). -/
def closeAll : List BFrame → List PTree → List PTree
  | [], cur => cur
  | fr :: stk, cur => closeAll stk (fr.saved ++ [PTree.elem fr.tag fr.attrs cur])

/-- Modelled from the spec: the single construction pass building the
arena tree from the token stream.  In strict mode a close tag that does
not match the innermost open element, or an element still open at end of
input, is a `ParseError`; lenient mode ignores stray close tags and
auto-closes open elements. -/
def buildToks (strict : Bool) : List (Nat × Tok) → List BFrame → List PTree →
    Except ParseError (List PTree)
  | [], [], cur => .ok cur
  | [], fr :: stk, cur =>
      if strict then .error ⟨"unterminated tag", fr.openPos⟩
      else .ok (closeAll stk (fr.saved ++ [PTree.elem fr.tag fr.attrs cur]))
  | (p, Tok.openT tg a) :: rest, stk, cur => buildToks strict rest (⟨tg, a, p, cur⟩ :: stk) []
  | (p, Tok.closeT tg) :: rest, stk, cur =>
      match stk with
      | [] => if strict then .error ⟨"mismatched close tag", p⟩ else buildToks strict rest [] cur
      | fr :: stk2 =>
        if fr.tag == tg then
          buildToks strict rest stk2 (fr.saved ++ [PTree.elem fr.tag fr.attrs cur])
        else if strict then .error ⟨"mismatched close tag", p⟩
        else buildToks strict rest (fr :: stk2) cur
  | (_, Tok.textT s) :: rest, stk, cur => buildToks strict rest stk (cur ++ [PTree.txt s])

/-- Modelled from the spec: `parse(input, kind) -> Document | ParseError`
(§4.1).  The kind selects only the strictness policy; the tokenizer and
builder are shared.  Strict mode requires exactly one root element;
lenient mode repairs (returning the single root element when there is
one and wrapping the top level in a `root` element otherwise) and never
fails. -/
def parse (s : String) (k : DocKind) : Except ParseError PTree :=
  let strict := k == DocKind.xml
  match tokenize strict 0 s.data with
  | .error e => .error e
  | .ok toks =>
    match buildToks strict toks [] [] with
    | .error e => .error e
    | .ok roots =>
      if strict then
        match roots with
        | [PTree.elem t a ks] => .ok (PTree.elem t a ks)
        | [] => .error ⟨"missing root element", 0⟩
        | [_] => .error ⟨"root is not an element", 0⟩
        | _ => .error ⟨"multiple root nodes", 0⟩
      else
        match roots with
        | [PTree.elem t a ks] => .ok (PTree.elem t a ks)
        | rs => .ok (PTree.elem "root" [] rs)

/-- `n` spaces. -/
def spacesC (n : Nat) : List Char := List.replicate n ' '

/-- Render an attribute list: a leading space then `name="value"` for each. -/
def renderAttrs (attrs : List (String × String)) : List Char :=
  attrs.flatMap (fun kv => ' ' :: (kv.1.data ++ ('=' :: '"' :: (kv.2.data ++ ['"']))))

mutual

/-- Modelled from the spec: the text renderer at the default options of
the front-end (`format({indent: 2, color: false})`, §4.3).  An element
whose only child is a single text node is rendered inline; an element
with several children renders each child on its own indented line;
text and comments are emitted verbatim. -/
def renderB (ind : Nat) : PTree → List Char
  | .txt s => s.data
  | .com s => ('<' :: '!' :: '-' :: '-' :: s.data) ++ ['-', '-', '>']
  | .elem tg a ks =>
      let openC : List Char := '<' :: (tg.data ++ renderAttrs a ++ ['>'])
      let closeC : List Char := '<' :: '/' :: (tg.data ++ ['>'])
      let body : List Char :=
        match ks with
        | [] => []
        | [PTree.txt s] => s.data
        | _ => renderKidsSep (ind + 2) ks ++ ('\n' :: spacesC ind)
      openC ++ body ++ closeC

/-- Render a child sequence: each child preceded by a newline and its
indentation. -/
def renderKidsSep (ind : Nat) : List PTree → List Char
  | [] => []
  | t :: ts => ('\n' :: spacesC ind) ++ renderB ind t ++ renderKidsSep ind ts

end

/-- Modelled from the spec: `format(document, options) -> text` at the
default options used by the front-end. -/
def format (d : PTree) : String := String.mk (renderB 0 d)

/-- JSON values, as produced by `to_json`. -/
inductive Json where
  | null
  | str (s : String)
  | arr (xs : List Json)
  | obj (kvs : List (String × Json))

/-- Distinct strings in first-occurrence order. -/
def firstDedup : List String → List String
  | [] => []
  | x :: xs => x :: (firstDedup xs).filter (fun y => !(y == x))

/-- The value grouped under one tag name: the single converted child when
exactly one pair carries the tag, a JSON array of the converted children
otherwise. -/
def groupValue (ps : List (String × Json)) (k : String) : Json :=
  match ps.filter (fun kv => kv.1 == k) with
  | [single] => single.2
  | ms => Json.arr (ms.map Prod.snd)

/-- Modelled from the spec: group a tag-name/value pair list by tag name
(§4.3) — each distinct tag name becomes one key, whose value is the
single converted child when exactly one child has that tag and a JSON
array of the converted children otherwise. -/
def groupPairs (ps : List (String × Json)) : List (String × Json) :=
  (firstDedup (ps.map Prod.fst)).map (fun k => (k, groupValue ps k))

/-- The direct text children of a child list. -/
def textKids (ks : List PTree) : List String :=
  ks.filterMap (fun k =>
    match k with
    | PTree.txt s => some s
    | _ => none)

mutual

/-- Modelled from the spec: `to_json` (§4.3).  An Element becomes a JSON
object: each attribute becomes a key prefixed with `@`, each distinct
child tag name becomes a key grouping the converted children
(single child → the child itself, several children → array).  An element
with no element children and no attributes and a single text child
becomes a bare JSON string; with no children and no attributes it
becomes JSON null. -/
def to_json : PTree → Json
  | .txt s => .str s
  | .com _ => .null
  | .elem _ attrs ks =>
      let ps := jsonPairs ks
      if ps.isEmpty && attrs.isEmpty then
        match textKids ks with
        | [] => .null
        | [s] => .str s
        | ss => .str (String.join ss)
      else
        .obj (attrs.map (fun kv => ("@" ++ kv.1, Json.str kv.2)) ++ groupPairs ps)

/-- The (tag, converted child) pairs of the element children of a child
list, in document order. -/
def jsonPairs : List PTree → List (String × Json)
  | [] => []
  | PTree.elem tg a ks :: rest => (tg, to_json (PTree.elem tg a ks)) :: jsonPairs rest
  | _ :: rest => jsonPairs rest

end

/-- From `App.tsx`: the component state the document-loading path touches. -/
structure AppState where
  docRef : Option PTree
  fileName : Option String
  content : String
  displayContent : String
  language : String
  error : Option String
  loading : Bool

/-- From `App.tsx` `cleanupDoc`: frees any held document handle and
clears `docRef.current`. -/
def cleanupDoc (s : AppState) : AppState := { s with docRef := none }

/-- From `App.tsx` `handleFormat`: formats the held document, storing the
output, or records a `Format Failed:` error.  `fmtF` models the wasm
`format` method (an external capability that may throw). -/
def handleFormat (fmtF : PTree → Except String String) (s : AppState) : AppState :=
  match s.docRef with
  | none => s
  | some d =>
    match fmtF d with
    | .ok out => { s with displayContent := out, error := none, loading := false }
    | .error e => { s with error := some ("Format Failed: " ++ e), loading := false }

/-- From `App.tsx` `loadFile`: clears the previous document, detects the
type, constructs the document (`ctor` models the `RxqDocument` wasm
constructor, which may throw), stores it and auto-formats on success, or
records a `Parse Error:` and frees the handle on failure. -/
def loadFile (ctor : String → String → Except String PTree)
    (fmtF : PTree → Except String String) (text name : String) (s0 : AppState) : AppState :=
  let s1 := cleanupDoc { s0 with loading := true, error := none }
  let s2 := { s1 with fileName := some name }
  let ty := detectType text name
  match ctor text ty with
  | .ok doc =>
    let s3 := { s2 with docRef := some doc, content := text, displayContent := text,
                        language := ty }
    let s4 := handleFormat fmtF s3
    { s4 with loading := false }
  | .error e =>
    let s3 := cleanupDoc { s2 with error := some ("Parse Error: " ++ e) }
    { s3 with loading := false }

/-- The decision rule exactly as claim C9 words it: `json` when the
trimmed text starts with a left brace or the name ends in `.json`,
otherwise `html` when the trimmed text starts with `<html` or the name
ends in `.html`, otherwise `xml`. -/
def detectTypeSpec (text name : String) : String :=
  if jsStartsWith (jsTrim text) "\x7b" || jsEndsWith name ".json" then "json"
  else if jsStartsWith (jsTrim text) "<html" || jsEndsWith name ".html" then "html"
  else "xml"

/-- A well-formed markup name: non-empty, name characters only. -/
def wfName (s : String) : Bool := !(s.data.isEmpty) && s.data.all isNameChar

/-- Well-formed parsed text: non-empty, already trimmed, no `<`, and all
entities valid. -/
def wfText (s : String) : Bool :=
  !(s.data.isEmpty) && trimChars s.data == s.data &&
    s.data.all (fun ch => !(ch == '<')) && (findBadEntity s.data).isNone

/-- Pairwise-distinct attribute names. -/
def keysDistinct : List (String × String) → Bool
  | [] => true
  | kv :: rest => !(rest.any (fun kv2 => kv2.1 == kv.1)) && keysDistinct rest

/-- Well-formed attribute list: well-formed distinct names, values free
of double quotes. -/
def wfAttrs (a : List (String × String)) : Bool :=
  a.all (fun kv => wfName kv.1 && kv.2.data.all (fun ch => !(ch == '"'))) && keysDistinct a

/-- No two adjacent text children (the tokenizer emits maximal text
chunks, so the builder never produces adjacent text nodes). -/
def noAdjText : List PTree → Bool
  | PTree.txt _ :: PTree.txt _ :: _ => false
  | _ :: ts => noAdjText ts
  | [] => true

/-- Well-formedness invariant of every forest the strict parser can
produce. -/
def wfF : List PTree → Bool
  | [] => true
  | PTree.elem tg a ks :: ts =>
      wfName tg && wfAttrs a && noAdjText ks && wfF ks && wfF ts
  | PTree.txt s :: ts => wfText s && wfF ts
  | PTree.com _ :: _ => false

/-- Well-formedness of a parsed document: an element whose tree is
well-formed. -/
def wfDoc (d : PTree) : Bool := isElem d && wfF [d]

/-- The token-kind stream a forest serializes to (positions erased). -/
def evF : List PTree → List Tok
  | [] => []
  | PTree.elem tg a ks :: ts => Tok.openT tg a :: (evF ks ++ (Tok.closeT tg :: evF ts))
  | PTree.txt s :: ts => Tok.textT s :: evF ts
  | PTree.com _ :: ts => evF ts

/-- The arena indices of the node results of a query result list. -/
def resIndices (rs : List QRes) : List Nat :=
  rs.filterMap (fun r =>
    match r with
    | QRes.nodeR i _ => some i
    | QRes.valR _ => none)

/-- The element children of a child list carrying a given tag. -/
def elemsWithTag (k : String) (ks : List PTree) : List PTree :=
  ks.filter (fun t =>
    match t with
    | PTree.elem tg _ _ => tg == k
    | _ => false)

/-- Specification of a strict-tokenizer run: for every sufficient fuel
and every base offset, tokenizing the input succeeds and the produced
token kinds (positions erased) are the given list. -/
def TokSpec (cs : List Char) (R : List Tok) : Prop :=
  ∀ f p, cs.length < f → ∃ t, tokenizeGo true f p cs = .ok t ∧ t.map Prod.snd = R

/-- Whether the last node of a sibling list is a text node. -/
def lastIsText : List PTree → Bool
  | [] => false
  | [PTree.txt _] => true
  | [_] => false
  | _ :: ts => lastIsText ts

/-- Whether a token is a text token. -/
def isTextTok : Tok → Bool
  | Tok.textT _ => true
  | _ => false

/-- No two adjacent text tokens in a token-kind stream. -/
def noAdjTT : List Tok → Bool
  | Tok.textT _ :: Tok.textT _ :: _ => false
  | _ :: ts => noAdjTT ts
  | [] => true

/-- Well-formedness of one token: names are well-formed, attribute lists
are well-formed, text is trimmed, non-empty, `<`-free and entity-valid. -/
def tokWf : Tok → Bool
  | Tok.openT tg a => wfName tg && wfAttrs a
  | Tok.closeT tg => wfName tg
  | Tok.textT s => wfText s

/-- Whether an Except result is a success. -/
def isOkE {ε α : Type} : Except ε α → Bool
  | .ok _ => true
  | .error _ => false

/-- A sample well-formed document used as a concrete roundtrip input. -/
def sampleDoc : PTree :=
  PTree.elem "root" [] [PTree.elem "child" [] [PTree.txt "value"]]

/-!  Theorems.  -/

/-- C9: in `loadFile` the kind passed to the `RxqDocument` constructor is
`json` when the trimmed text starts with a left brace or the name ends in
`.json`, otherwise `html` when the trimmed text starts with `<html` or
the name ends in `.html`, otherwise `xml`; the json rule is applied last
and therefore takes precedence over the html rule. -/
theorem detectType_eq_spec (text name : String) :
    detectType text name = detectTypeSpec text name := by
  unfold detectType detectTypeSpec
  cases h1 : jsStartsWith (jsTrim text) "\x7b" || jsEndsWith name ".json" <;>
    cases h2 : jsStartsWith (jsTrim text) "<html" || jsEndsWith name ".html" <;>
      simp [h1, h2]

/-- C8 counterexample: the front-end `loadFile` (the caller of the parse
entry point) computes the kind `json` — outside {xml, html} — for a file
named `data.json`, refuting "no caller passes a kind outside {Xml, Html}". -/
theorem loadFile_kind_counterexample :
    detectType "" "data.json" = "json" ∧ "json" ≠ "xml" ∧ "json" ≠ "html" :=
  ⟨rfl, by decide, by decide⟩

/-- C8 (amended): every document kind `loadFile` passes to the
`RxqDocument` constructor is one of `xml`, `html`, `json`; the kind still
selects only downstream strictness/formatting policy, never which
tokenizer runs. -/
theorem loadFile_kind_membership (text name : String) :
    detectType text name = "xml" ∨ detectType text name = "html" ∨
      detectType text name = "json" := by
  unfold detectType
  cases h1 : jsStartsWith (jsTrim text) "\x7b" || jsEndsWith name ".json" <;>
    cases h2 : jsStartsWith (jsTrim text) "<html" || jsEndsWith name ".html" <;>
      simp [h1, h2]

/-- C10: when the `RxqDocument` constructor throws during `loadFile`, the
resulting state holds no document handle (`docRef.current` is null — any
previous document was freed and cleared) and the error state is the
thrown message prefixed with `Parse Error: `. -/
theorem loadFile_parse_error_state
    (ctor : String → String → Except String PTree)
    (fmtF : PTree → Except String String) (text name : String) (s0 : AppState) (e : String)
    (h : ctor text (detectType text name) = .error e) :
    (loadFile ctor fmtF text name s0).docRef = none ∧
    (loadFile ctor fmtF text name s0).error = some ("Parse Error: " ++ e) := by
  unfold loadFile cleanupDoc
  simp only [h]
  simp

/-- C10 witness: a constructor that always throws leaves no document
handle (even though the previous state held one) and records the error. -/
theorem loadFile_parse_error_state_witness :
    (loadFile (fun _ _ => .error "bad") (fun _ => .ok "") "t" "f.xml"
        ⟨some (PTree.txt "old"), none, "", "", "", none, false⟩).docRef = none ∧
    (loadFile (fun _ _ => .error "bad") (fun _ => .ok "") "t" "f.xml"
        ⟨some (PTree.txt "old"), none, "", "", "", none, false⟩).error =
      some ("Parse Error: " ++ "bad") :=
  loadFile_parse_error_state _ _ _ _ _ _ rfl

/-- C5: a path expression that fails to compile produces an error and no
results at all — `runQuery` compiles fully before visiting any node, so a
syntax error never yields a partial result sequence for any document. -/
theorem invalid_query_no_results (e : String) (d : PTree) (err : QueryError)
    (h : compileQ e = .error err) :
    runQuery e d = .error err := by
  unfold runQuery
  rw [h]
  rfl

/-- C5 witness: the unterminated predicate `//a[@x=` fails compilation
with `InvalidSyntax` at position 7 and evaluates to that error (no
partial results) on a concrete document. -/
theorem invalid_query_no_results_witness :
    compileQ "//a[@x=" = .error (QueryError.invalid 7) ∧
    runQuery "//a[@x=" (PTree.txt "t") = .error (QueryError.invalid 7) :=
  ⟨rfl, invalid_query_no_results _ _ _ rfl⟩

/-- Every frame costs at least one machine iteration. -/
theorem costS_pos (ss : List Step) (p : Nat × PTree) : 1 ≤ costS ss p := by
  cases ss <;> simp [costS]

/-- The lazy machine, given enough fuel, produces exactly the denotation
of its stack: the concatenation of `evalSteps` over the frames. -/
theorem machineRun_eq_flat (fuel : Nat) :
    ∀ stk, costStack stk ≤ fuel →
      machineRun fuel stk = stk.flatMap (fun f => evalSteps f.2 f.1) := by
  induction fuel with
  | zero =>
    intro stk h
    cases stk with
    | nil => simp [machineRun]
    | cons f rest =>
      exfalso
      have h1 := costS_pos f.2 f.1
      simp [costStack] at h
      omega
  | succ n ih =>
    intro stk h
    match stk with
    | [] => simp [machineRun]
    | (p, []) :: rest =>
      have hc : costStack rest ≤ n := by
        simp [costStack, costS] at h ⊢
        omega
      simp [machineRun, evalSteps, ih rest hc]
    | (p, st :: ss) :: rest =>
      have hcost : costStack
          (((candidates st.axis p).filter (fun q => admits st q.2)).map
            (fun q => (q, ss)) ++ rest) ≤ n := by
        simp [costStack, costS, List.map_append, List.map_map, Function.comp_def] at h ⊢
        omega
      rw [machineRun, ih _ hcost]
      simp [evalSteps, List.flatMap_append, List.flatMap_map]

/-- C7: evaluation is deterministic — two runs of the lazy machine from
the same compiled steps and the same scope node, with any two sufficient
fuel budgets, produce identical result sequences, and each equals the
evaluation denotation. -/
theorem machine_deterministic (steps : List Step) (p : Nat × PTree) (f1 f2 : Nat)
    (h1 : costStack [(p, steps)] ≤ f1) (h2 : costStack [(p, steps)] ≤ f2) :
    machineRun f1 [(p, steps)] = machineRun f2 [(p, steps)] ∧
    machineRun f1 [(p, steps)] = evalSteps steps p := by
  rw [machineRun_eq_flat f1 _ h1, machineRun_eq_flat f2 _ h2]
  simp

/-- C7 witness: two concrete runs with different fuel budgets agree. -/
theorem machine_deterministic_witness :
    costStack [((0, PTree.txt "x"), ([] : List Step))] ≤ 5 ∧
    machineRun 5 [((0, PTree.txt "x"), ([] : List Step))] =
      machineRun 7 [((0, PTree.txt "x"), ([] : List Step))] :=
  ⟨by decide, (machine_deterministic [] (0, PTree.txt "x") 5 7 (by decide) (by decide)).1⟩

/-- The indices of the document-order node list of a forest are the
consecutive range starting at the base index: indices are assigned in
document order during the single construction pass. -/
theorem preF_map_fst (n : Nat) (ts : List PTree) :
    (preF n ts).map Prod.fst = List.range' n (sizeL ts) := by
  induction n, ts using preF.induct with
  | case1 n => simp [preF, sizeL]
  | case2 n tg a ks ts ih1 ih2 =>
    have hsz : sizeL [PTree.elem tg a ks] = 1 + sizeL ks := by simp [sizeL]
    rw [hsz] at ih2
    simp only [preF, List.map_cons, List.map_append, ih1, hsz, ih2]
    have h1 : n + (1 + sizeL ks) = (n + 1) + sizeL ks := by omega
    rw [h1, List.range'_append_1]
    have h2 : sizeL (PTree.elem tg a ks :: ts) = (sizeL ts + sizeL ks) + 1 := by
      simp [sizeL]; omega
    rw [h2, List.range'_succ]
  | case3 n t ts hcon ih =>
    cases t with
    | elem tg a ks => exact absurd rfl (fun h => hcon tg a ks h)
    | txt s =>
      simp only [preF, sizeL, List.map_cons, ih]
      rw [Nat.add_comm 1 (sizeL ts), List.range'_succ]
    | com s =>
      simp only [preF, sizeL, List.map_cons, ih]
      rw [Nat.add_comm 1 (sizeL ts), List.range'_succ]

/-- The `*` node test holds exactly of Elements. -/
theorem testHolds_anyElem (t : PTree) : testHolds NodeTest.anyElem t = isElem t := by
  cases t <;> rfl

/-- A single descendant-or-self step evaluates to the filtered
descendant-or-self candidates. -/
theorem evalSteps_single_desc (t : NodeTest) (prs : List APred) (p : Nat × PTree) :
    evalSteps [⟨Axis.descOrSelf, t, prs⟩] p =
      (descSelf p).filter (fun q => admits ⟨Axis.descOrSelf, t, prs⟩ q.2) := by
  simp [evalSteps, candidates]

/-- C1: the query `//*` yields every Element node of the document exactly
once, in ascending index order, which is document order because indices
are assigned in document order during the single construction pass. -/
theorem query_all_elements (d : PTree) :
    compileQ "//*" = Except.ok ⟨[⟨Axis.descOrSelf, NodeTest.anyElem, []⟩], none⟩ ∧
    evalQuery ⟨[⟨Axis.descOrSelf, NodeTest.anyElem, []⟩], none⟩ (0, d) =
      ((docNodes d).filter (fun p => isElem p.2)).map (fun p => QRes.nodeR p.1 p.2) ∧
    List.Pairwise (· < ·)
      (resIndices (evalQuery ⟨[⟨Axis.descOrSelf, NodeTest.anyElem, []⟩], none⟩ (0, d))) ∧
    ∀ p ∈ docNodes d, isElem p.2 = true →
      (resIndices
        (evalQuery ⟨[⟨Axis.descOrSelf, NodeTest.anyElem, []⟩], none⟩ (0, d))).count p.1 = 1 := by
  have hds : descSelf (0, d) = docNodes d := rfl
  have heval : evalQuery ⟨[⟨Axis.descOrSelf, NodeTest.anyElem, []⟩], none⟩ (0, d) =
      ((docNodes d).filter (fun p => isElem p.2)).map (fun p => QRes.nodeR p.1 p.2) := by
    rw [evalQuery, evalSteps_single_desc, hds]
    simp [admits, testHolds_anyElem]
  have hres : resIndices (evalQuery ⟨[⟨Axis.descOrSelf, NodeTest.anyElem, []⟩], none⟩ (0, d)) =
      ((docNodes d).filter (fun p => isElem p.2)).map Prod.fst := by
    rw [heval]
    simp only [resIndices, List.filterMap_map, Function.comp_def]
    rw [show (fun (x : Nat × PTree) => some x.1) = (some ∘ Prod.fst) from rfl,
      List.filterMap_eq_map]
  have hsub : List.Sublist (((docNodes d).filter (fun p => isElem p.2)).map Prod.fst)
      ((docNodes d).map Prod.fst) := (List.filter_sublist _).map _
  have hfst : (docNodes d).map Prod.fst = List.range' 0 (sizeL [d]) := preF_map_fst 0 [d]
  have hpair : List.Pairwise (· < ·) ((docNodes d).map Prod.fst) := by
    rw [hfst]; exact List.pairwise_lt_range' _ _ 1 (by omega)
  have hnd : ((docNodes d).map Prod.fst).Nodup := by
    rw [hfst]; exact List.nodup_range' _ _ 1 (by omega)
  refine ⟨rfl, heval, ?_, ?_⟩
  · rw [hres]; exact hpair.sublist hsub
  · intro p hp hel
    rw [hres]
    have hmem : p ∈ (docNodes d).filter (fun q => isElem q.2) :=
      List.mem_filter.mpr ⟨hp, hel⟩
    exact List.count_eq_one_of_mem (hnd.sublist hsub) (List.mem_map_of_mem _ hmem)

/-- C2: with an attribute predicate `[@a='v']`, a node is admitted as a
result iff it is an Element, it has attribute `a`, and the attribute's
value is exactly `v` (string equality on the raw character data: no
whitespace normalization, case-sensitive). -/
theorem attribute_predicate_iff (d : PTree) (a v : String) (p : Nat × PTree) :
    p ∈ evalSteps [⟨Axis.descOrSelf, NodeTest.anyElem, [⟨a, v⟩]⟩] (0, d) ↔
      p ∈ docNodes d ∧ isElem p.2 = true ∧ getAttr p.2 a = some v := by
  rw [evalSteps_single_desc]
  have hds : descSelf (0, d) = docNodes d := rfl
  rw [hds]
  simp [List.mem_filter, admits, testHolds_anyElem, predHolds, and_assoc]

/-- Membership in `firstDedup` is membership in the original list. -/
theorem mem_firstDedup (l : List String) (k : String) :
    k ∈ firstDedup l ↔ k ∈ l := by
  induction l with
  | nil => simp [firstDedup]
  | cons x xs ih =>
    by_cases hx : k = x
    · subst hx; simp [firstDedup]
    · simp [firstDedup, List.mem_filter, hx, ih]

/-- The pairs `jsonPairs` holds under a tag name are exactly the
converted element children carrying that tag. -/
theorem jsonPairs_filter (ks : List PTree) (k : String) :
    (jsonPairs ks).filter (fun kv => kv.1 == k) =
      (elemsWithTag k ks).map (fun t => (k, to_json t)) := by
  induction ks with
  | nil => simp [jsonPairs, elemsWithTag]
  | cons t rest ih =>
    cases t with
    | elem tg a kk =>
      by_cases htg : tg = k
      · subst htg; simp [jsonPairs, elemsWithTag, List.filter_cons, ih]
      · simp [jsonPairs, elemsWithTag, List.filter_cons, htg, ih]
    | txt s => simp [jsonPairs, elemsWithTag, List.filter_cons, ih]
    | com s => simp [jsonPairs, elemsWithTag, List.filter_cons, ih]

/-- Looking up a present tag name in the grouped pairs finds its grouped
value. -/
theorem groupPairs_find (ps : List (String × Json)) (k : String)
    (h : k ∈ ps.map Prod.fst) :
    (groupPairs ps).find? (fun kv => kv.1 == k) = some (k, groupValue ps k) := by
  unfold groupPairs
  have hm : k ∈ firstDedup (ps.map Prod.fst) := (mem_firstDedup _ _).mpr h
  generalize firstDedup (ps.map Prod.fst) = L at hm
  induction L with
  | nil => cases hm
  | cons x xs ih =>
    by_cases hx : x = k
    · subst hx; simp [List.find?]
    · have hxs : k ∈ xs := by
        rcases List.mem_cons.mp hm with h1 | h1
        · exact absurd h1.symm hx
        · exact h1
      have hbeq : (x == k) = false := by
        simp [hx]
      simp only [List.map_cons, List.find?, hbeq]
      exact ih hxs

/-- C4: the `to_json` mapping — a present child tag name groups to the
single converted child when exactly one child carries the tag and to a
JSON array when several do; an element with no element children, no
attributes, and a single text child becomes a bare JSON string; an
element with no children and no attributes becomes JSON null; and the
parse of `<root><item>a</item><item>b</item></root>` converts to the
object mapping `item` to the array of the two strings. -/
theorem to_json_mapping :
    (∀ ks k t, elemsWithTag k ks = [t] →
       (groupPairs (jsonPairs ks)).find? (fun kv => kv.1 == k) = some (k, to_json t)) ∧
    (∀ ks k, 2 ≤ (elemsWithTag k ks).length →
       (groupPairs (jsonPairs ks)).find? (fun kv => kv.1 == k) =
         some (k, Json.arr ((elemsWithTag k ks).map to_json))) ∧
    (∀ tag attrs ks, ¬(jsonPairs ks = [] ∧ attrs = []) →
       to_json (PTree.elem tag attrs ks) =
         Json.obj (attrs.map (fun kv => ("@" ++ kv.1, Json.str kv.2)) ++
           groupPairs (jsonPairs ks))) ∧
    (∀ tag s, to_json (PTree.elem tag [] [PTree.txt s]) = Json.str s) ∧
    (∀ tag, to_json (PTree.elem tag [] []) = Json.null) ∧
    parse "<root><item>a</item><item>b</item></root>" DocKind.xml =
      Except.ok (PTree.elem "root" [] [PTree.elem "item" [] [PTree.txt "a"],
        PTree.elem "item" [] [PTree.txt "b"]]) ∧
    to_json (PTree.elem "root" [] [PTree.elem "item" [] [PTree.txt "a"],
        PTree.elem "item" [] [PTree.txt "b"]]) =
      Json.obj [("item", Json.arr [Json.str "a", Json.str "b"])] := by
  refine ⟨?_, ?_, ?_, ?_, ?_, rfl, rfl⟩
  · intro ks k t h
    have hf := jsonPairs_filter ks k
    rw [h] at hf
    have hmemf : (k, to_json t) ∈ (jsonPairs ks).filter (fun kv => kv.1 == k) := by
      rw [hf]; simp
    have hkey : k ∈ (jsonPairs ks).map Prod.fst :=
      List.mem_map_of_mem Prod.fst (List.mem_of_mem_filter hmemf)
    rw [groupPairs_find _ _ hkey]
    unfold groupValue
    rw [hf]
    rfl
  · intro ks k h2
    have hf := jsonPairs_filter ks k
    match hlist : elemsWithTag k ks with
    | [] => rw [hlist] at h2; simp at h2
    | [x] => rw [hlist] at h2; simp at h2
    | a :: b :: rest =>
      rw [hlist] at hf
      have hmemf : (k, to_json a) ∈ (jsonPairs ks).filter (fun kv => kv.1 == k) := by
        rw [hf]; simp
      have hkey : k ∈ (jsonPairs ks).map Prod.fst :=
        List.mem_map_of_mem Prod.fst (List.mem_of_mem_filter hmemf)
      rw [groupPairs_find _ _ hkey]
      unfold groupValue
      rw [hf]
      simp
  · intro tag attrs ks hne
    have hif : ((jsonPairs ks).isEmpty && attrs.isEmpty) = false := by
      cases h1 : (jsonPairs ks).isEmpty with
      | false => simp
      | true =>
        have h3 : jsonPairs ks = [] := by
          cases hjs : jsonPairs ks with
          | nil => rfl
          | cons y ys => rw [hjs] at h1; simp at h1
        have h4 : attrs ≠ [] := fun hh => hne ⟨h3, hh⟩
        have h5 : attrs.isEmpty = false := by
          cases attrs with
          | nil => exact absurd rfl h4
          | cons z zs => rfl
        simp [h5]
    simp only [to_json, hif]
    simp
  · intro tag s
    rfl
  · intro tag
    rfl

/-- C4 witness: in the two-sibling example the tag `item` groups to the
array of the two converted children. -/
theorem to_json_mapping_witness :
    (groupPairs (jsonPairs [PTree.elem "item" [] [PTree.txt "a"],
        PTree.elem "item" [] [PTree.txt "b"]])).find? (fun kv => kv.1 == "item") =
      some ("item", Json.arr [Json.str "a", Json.str "b"]) := by
  have h := to_json_mapping.2.1
    [PTree.elem "item" [] [PTree.txt "a"], PTree.elem "item" [] [PTree.txt "b"]]
    "item" (by decide)
  rw [h]
  rfl

/-- A whitespace character is not `&`, `<`, `;`, an entity-name
character, nor a name character. -/
theorem isWs_facts (c : Char) (h : isWs c = true) :
    (c == '&') = false ∧ (c == '<') = false ∧ (c == ';') = false ∧ entChar c = false ∧
      isNameChar c = false ∧ (c == '>') = false ∧ (c == '"') = false := by
  unfold isWs at h
  simp only [Bool.or_eq_true, beq_iff_eq] at h
  rcases h with ((h | h) | h) | h <;> subst h <;>
    exact ⟨by decide, by decide, by decide, by decide, by decide, by decide, by decide⟩

/-- Dropping a satisfied prefix continues past an all-satisfying block. -/
theorem dropWhile_append_of_all (p : Char → Bool) (a b : List Char)
    (h : a.all p = true) : List.dropWhile p (a ++ b) = List.dropWhile p b := by
  induction a with
  | nil => simp
  | cons c t ih =>
    simp only [List.all_cons, Bool.and_eq_true] at h
    simp only [List.cons_append, List.dropWhile_cons, h.1, if_pos]
    exact ih h.2

/-- Right-trimming ignores an all-satisfying suffix block. -/
theorem rdropWhile_append_of_all (p : Char → Bool) (x b : List Char)
    (h : b.all p = true) : List.rdropWhile p (x ++ b) = List.rdropWhile p x := by
  induction b using List.reverseRecOn with
  | nil => simp
  | append_singleton ys a ih =>
    simp only [List.all_append, List.all_cons, List.all_nil, Bool.and_eq_true] at h
    rw [← List.append_assoc, List.rdropWhile_concat_pos]
    · exact ih h.1
    · exact h.2.1

/-- Trimming an all-whitespace list yields the empty list. -/
theorem trimChars_all_ws (l : List Char) (h : l.all isWs = true) :
    trimChars l = [] := by
  unfold trimChars
  have h1 : List.dropWhile isWs l = [] := by
    rw [List.dropWhile_eq_nil_iff]
    exact fun x hx => List.all_eq_true.mp h x hx
  rw [h1]
  simp

/-- Trimming is idempotent. -/
theorem trimChars_idem (l : List Char) : trimChars (trimChars l) = trimChars l := by
  unfold trimChars
  have h1 : List.dropWhile isWs (List.rdropWhile isWs (List.dropWhile isWs l)) =
      List.rdropWhile isWs (List.dropWhile isWs l) := by
    rcases hB : List.rdropWhile isWs (List.dropWhile isWs l) with _ | ⟨c, t⟩
    · simp
    · have hpre := List.rdropWhile_prefix isWs (List.dropWhile isWs l)
      rw [hB] at hpre
      have hne : (c :: t) ≠ ([] : List Char) := by simp
      have hne2 : List.dropWhile isWs l ≠ [] := by
        intro hcon
        rw [hcon] at hpre
        simp at hpre
      have hhead := hpre.head hne
      have hc : isWs c = false := by
        have hcc : (c :: t).head hne = c := rfl
        rw [hcc] at hhead
        rw [hhead]
        exact List.head_dropWhile_not isWs l hne2
      rw [List.dropWhile_cons, if_neg (by simp [hc])]
  rw [h1, List.rdropWhile_idempotent]

/-- Trimming recovers an already-trimmed non-empty core from whitespace
padding on both sides. -/
theorem trimChars_pad (ws ws2 s : List Char) (h1 : ws.all isWs = true)
    (h2 : ws2.all isWs = true) (h3 : trimChars s = s) :
    trimChars (ws ++ s ++ ws2) = s := by
  cases s with
  | nil =>
    have : (ws ++ [] ++ ws2).all isWs = true := by
      simp only [List.append_nil, List.all_append]
      simp [h1, h2]
    exact trimChars_all_ws _ this
  | cons c t =>
    have hc : isWs c = false := by
      by_contra hcon
      have hcw : isWs c = true := by
        revert hcon; cases isWs c <;> simp
      have hlen : (trimChars (c :: t)).length ≤ t.length := by
        unfold trimChars
        rw [List.dropWhile_cons, if_pos hcw]
        calc (List.rdropWhile isWs (List.dropWhile isWs t)).length
            ≤ (List.dropWhile isWs t).length := ( List.rdropWhile_prefix _ _).length_le
          _ ≤ t.length := (List.dropWhile_sublist _).length_le
      rw [h3] at hlen
      simp at hlen
    have hdw : List.dropWhile isWs (c :: t) = c :: t := by
      rw [List.dropWhile_cons, if_neg (by simp [hc])]
    have hrd : List.rdropWhile isWs (c :: t) = c :: t := by
      have h4 := h3
      unfold trimChars at h4
      rw [hdw] at h4
      exact h4
    unfold trimChars
    rw [List.append_assoc, dropWhile_append_of_all _ _ _ h1]
    rw [show List.dropWhile isWs ((c :: t) ++ ws2) = (c :: t) ++ ws2 by
      rw [List.cons_append, List.dropWhile_cons, if_neg (by simp [hc])]]
    rw [rdropWhile_append_of_all _ _ _ h2, hrd]

/-- The entity scanner is fuel-insensitive once the fuel exceeds the
input length. -/
theorem findBadEntityGo_eq (f : Nat) : ∀ cs : List Char, cs.length < f →
    findBadEntityGo f cs = findBadEntity cs := by
  induction f using Nat.strong_induction_on with
  | _ f ih =>
    intro cs hlen
    match f, hlen with
    | n + 1, hlen =>
      cases cs with
      | nil => rfl
      | cons c rest =>
        have hwrap : findBadEntity (c :: rest) =
            findBadEntityGo (rest.length + 2) (c :: rest) := rfl
        rw [hwrap]
        simp only [findBadEntityGo]
        by_cases hc : (c == '&') = true
        · rw [if_pos hc, if_pos hc]
          rcases hdw : rest.dropWhile entChar with _ | ⟨d, r3⟩
          · rfl
          · have hr3 : r3.length < rest.length := by
              have h1 : (rest.dropWhile entChar).length ≤ rest.length :=
                (List.dropWhile_sublist _).length_le
              rw [hdw] at h1
              simp at h1
              omega
            split
            · next r3x heq =>
              injection heq with h1 h2
              subst h2
              split
              · have ha : findBadEntityGo n r3 = findBadEntity r3 := by
                  apply ih n (by omega) r3
                  simp at hlen
                  omega
                have hb : findBadEntityGo (rest.length + 1) r3 =
                    findBadEntity r3 := by
                  apply ih (rest.length + 1) (by simp at hlen; omega) r3
                  omega
                rw [ha, hb]
              · rfl
            · next hne => rfl
        · rw [if_neg hc, if_neg hc]
          have ha : findBadEntityGo n rest = findBadEntity rest := by
            apply ih n (by omega) rest
            simp at hlen
            omega
          have hb : findBadEntityGo (rest.length + 1) rest = findBadEntity rest := rfl
          rw [ha, hb]

/-- Recurrence: a non-`&` head shifts the scan by one. -/
theorem findBadEntity_cons (c : Char) (rest : List Char) (hc : (c == '&') = false) :
    findBadEntity (c :: rest) = (findBadEntity rest).map (fun k => k + 1) := by
  show findBadEntityGo (rest.length + 2) (c :: rest) = _
  simp only [findBadEntityGo]
  rw [if_neg (by simp [hc])]
  rfl

/-- Recurrence: an `&` head scans its entity name and continues after the
semicolon when the name is valid. -/
theorem findBadEntity_amp (rest : List Char) :
    findBadEntity ('&' :: rest) =
      (match rest.dropWhile entChar with
       | ';' :: r3 =>
           if validEntName (rest.takeWhile entChar) then
             (findBadEntity r3).map (fun k => k + (rest.takeWhile entChar).length + 2)
           else some 0
       | _ => some 0) := by
  show findBadEntityGo (rest.length + 2) ('&' :: rest) = _
  simp only [findBadEntityGo]
  rw [if_pos (by decide)]
  rcases hdw : rest.dropWhile entChar with _ | ⟨d, r3⟩
  · rfl
  · have hr3 : r3.length < rest.length + 1 := by
      have h1 : (rest.dropWhile entChar).length ≤ rest.length :=
        (List.dropWhile_sublist _).length_le
      rw [hdw] at h1
      simp at h1
      omega
    split
    · next r3x heq =>
      injection heq with h1 h2
      subst h2
      split
      · rw [findBadEntityGo_eq (rest.length + 1) r3 hr3]
      · rfl
    · next => rfl

/-- An all-whitespace chunk has no entity error. -/
theorem findBadEntity_all_ws (ws : List Char) (h : ws.all isWs = true) :
    findBadEntity ws = none := by
  induction ws with
  | nil => rfl
  | cons c t ih =>
    simp only [List.all_cons, Bool.and_eq_true] at h
    rw [findBadEntity_cons c t (isWs_facts c h.1).1, ih h.2]
    rfl

/-- `Option.map` preserves `isNone`. -/
theorem isNone_map {α β : Type} (f : α → β) (o : Option α) :
    (o.map f).isNone = o.isNone := by
  cases o <;> rfl

/-- A whitespace prefix does not affect whether the entity scan succeeds. -/
theorem findBadEntity_ws_prefix (ws l : List Char) (h : ws.all isWs = true) :
    (findBadEntity (ws ++ l)).isNone = (findBadEntity l).isNone := by
  induction ws with
  | nil => simp
  | cons c t ih =>
    simp only [List.all_cons, Bool.and_eq_true] at h
    rw [List.cons_append, findBadEntity_cons c (t ++ l) (isWs_facts c h.1).1]
    rw [isNone_map]
    exact ih h.2

/-- A whitespace suffix does not affect whether the entity scan succeeds. -/
theorem findBadEntity_ws_suffix (l ws : List Char) (h : ws.all isWs = true) :
    (findBadEntity (l ++ ws)).isNone = (findBadEntity l).isNone := by
  suffices H : ∀ n, ∀ l : List Char, l.length = n →
      (findBadEntity (l ++ ws)).isNone = (findBadEntity l).isNone by
    exact H l.length l rfl
  intro n
  induction n using Nat.strong_induction_on with
  | _ n ih =>
    intro l hn
    subst hn
    cases l with
    | nil =>
      rw [List.nil_append, findBadEntity_all_ws ws h]
      rfl
    | cons c rest =>
      by_cases hc : (c == '&') = true
      · have hceq : c = '&' := by
          simpa using hc
        subst hceq
        rw [List.cons_append, findBadEntity_amp, findBadEntity_amp]
        rcases hdw : rest.dropWhile entChar with _ | ⟨d, r3⟩
        · -- rest is all entity characters; the suffix continues into ws
          have hall : ∀ x ∈ rest, entChar x = true := by
            rw [← List.dropWhile_eq_nil_iff]
            exact hdw
          have hdw2 : (rest ++ ws).dropWhile entChar = ws := by
            rw [dropWhile_append_of_all entChar rest ws
              (List.all_eq_true.mpr hall)]
            cases ws with
            | nil => rfl
            | cons w ws2 =>
              simp only [List.all_cons, Bool.and_eq_true] at h
              rw [List.dropWhile_cons, if_neg (by simp [(isWs_facts w h.1).2.2.2.1])]
          rw [hdw2]
          cases ws with
          | nil => rfl
          | cons w ws2 =>
            simp only [List.all_cons, Bool.and_eq_true] at h
            have hw : (w == ';') = false := (isWs_facts w h.1).2.2.1
            split
            · next r3x heq =>
              injection heq with h1 h2
              exact absurd h1 (by simpa using hw)
            · next => rfl
        · -- the scan inside l is unaffected by the suffix
          have htw : (rest ++ ws).takeWhile entChar = rest.takeWhile entChar := by
            rw [List.takeWhile_append]
            have hlt : (rest.takeWhile entChar).length ≠ rest.length := by
              have hsum := congrArg List.length (List.takeWhile_append_dropWhile
                (p := entChar) (l := rest))
              rw [hdw] at hsum
              simp at hsum
              omega
            rw [if_neg hlt]
          have hdw2 : (rest ++ ws).dropWhile entChar = d :: (r3 ++ ws) := by
            rw [List.dropWhile_append, hdw]
            simp
          rw [hdw2, htw]
          by_cases hd : d = ';'
          · subst hd
            split
            · next heq =>
              injection heq with h1 h2
              subst h2
              split
              · next hval =>
                simp only [isNone_map]
                have h1 : (rest.dropWhile entChar).length ≤ rest.length :=
                  (List.dropWhile_sublist _).length_le
                rw [hdw] at h1
                simp only [List.length_cons] at h1
                exact ih r3.length (by simp; omega) r3 rfl
              · next => rfl
            · next hne => exact (hne (r3 ++ ws) rfl).elim
          · split
            · next heq =>
              injection heq with h1 h2
              exact absurd h1 hd
            · next =>
              split
              · next heq =>
                injection heq with h1 h2
                exact absurd h1 hd
              · next => rfl
      · have hcf : (c == '&') = false := by
          revert hc; cases (c == '&') <;> simp
        rw [List.cons_append, findBadEntity_cons c (rest ++ ws) hcf,
          findBadEntity_cons c rest hcf, isNone_map, isNone_map]
        exact ih rest.length (by simp) rest rfl

/-- `String.mk` of the character data is the string itself. -/
theorem string_mk_data (s : String) : String.mk s.data = s := by
  cases s
  rfl

/-- A name character is not whitespace. -/
theorem isNameChar_not_ws (c : Char) (h : isNameChar c = true) : isWs c = false := by
  cases hw : isWs c
  · rfl
  · have h2 := (isWs_facts c hw).2.2.2.2.1
    rw [h] at h2
    exact absurd h2 (by simp)

/-- A name character differs from any non-name character. -/
theorem isNameChar_ne (c d : Char) (h : isNameChar c = true)
    (hd : isNameChar d = false) : (c == d) = false := by
  cases hcd : c == d
  · rfl
  · have heq : c = d := by simpa using hcd
    subst heq
    rw [h] at hd
    exact absurd hd (by simp)

/-- `takeWhile`/`dropWhile` across a fully-satisfying block stopped by a
failing head. -/
theorem takeWhile_block (p : Char → Bool) (a : List Char) (d : Char) (b : List Char)
    (ha : a.all p = true) (hd : p d = false) :
    (a ++ d :: b).takeWhile p = a ∧ (a ++ d :: b).dropWhile p = d :: b := by
  induction a with
  | nil =>
    simp [List.takeWhile_cons, List.dropWhile_cons, hd]
  | cons c t ih =>
    simp only [List.all_cons, Bool.and_eq_true] at ha
    have ihr := ih ha.2
    simp [List.takeWhile_cons, List.dropWhile_cons, ha.1, ihr.1, ihr.2]

/-- The token stream of a forest splits at its head. -/
theorem evF_cons (t : PTree) (ts : List PTree) : evF (t :: ts) = evF [t] ++ evF ts := by
  cases t <;> simp [evF]

/-- Forest well-formedness distributes over append. -/
theorem wfF_append (xs ys : List PTree) : wfF (xs ++ ys) = (wfF xs && wfF ys) := by
  induction xs with
  | nil => simp [wfF]
  | cons t ts ih =>
    cases t <;> simp [wfF, ih, Bool.and_assoc]

/-- A non-text node can always be appended without creating adjacent
text nodes. -/
theorem noAdjText_append_not_text (xs : List PTree) (t : PTree)
    (h1 : noAdjText xs = true) (h2 : isText t = false) :
    noAdjText (xs ++ [t]) = true := by
  induction xs with
  | nil =>
    cases t with
    | txt s => simp [isText] at h2
    | elem tg a ks => simp [noAdjText]
    | com s => simp [noAdjText]
  | cons x rest ih =>
    cases rest with
    | nil =>
      cases x <;> cases t <;> simp_all [noAdjText, isText]
    | cons y rest2 =>
      cases x <;> cases y <;> simp_all [noAdjText]

/-- A node can be appended after a non-text last node without creating
adjacent text nodes. -/
theorem noAdjText_append_last (xs : List PTree) (t : PTree)
    (h1 : noAdjText xs = true) (h2 : lastIsText xs = false) :
    noAdjText (xs ++ [t]) = true := by
  induction xs with
  | nil =>
    cases t <;> simp [noAdjText]
  | cons x rest ih =>
    cases rest with
    | nil =>
      cases x <;> cases t <;> simp_all [noAdjText, lastIsText]
    | cons y rest2 =>
      cases x <;> cases y <;> simp_all [noAdjText, lastIsText]

/-- Appending fixes the last-node-is-text flag. -/
theorem lastIsText_append (xs : List PTree) (t : PTree) :
    lastIsText (xs ++ [t]) = isText t := by
  induction xs with
  | nil => cases t <;> rfl
  | cons x rest ih =>
    cases rest with
    | nil => cases x <;> cases t <;> simp_all [lastIsText, isText]
    | cons y rest2 => cases x <;> simp_all [lastIsText]

/-- Tokenizing the empty input yields no tokens. -/
theorem tokSpec_nil : TokSpec [] [] := by
  intro f p hf
  match f, hf with
  | n + 1, _ => exact ⟨[], rfl, rfl⟩

/-- One strict-tokenizer step over a text chunk delimited by `<` (or end
of input): validate entities, trim, drop if empty, emit otherwise. -/
theorem tokenizeGo_text_step (f p : Nat) (chunk rest : List Char)
    (hne : chunk ≠ []) (hlt : chunk.all (fun c => !(c == '<')) = true)
    (hrest : rest = [] ∨ ∃ r2, rest = '<' :: r2) :
    tokenizeGo true (f + 1) p (chunk ++ rest) =
      (match findBadEntity chunk with
       | some k => .error ⟨"invalid entity", p + k⟩
       | none =>
         if (trimChars chunk).isEmpty then tokenizeGo true f (p + chunk.length) rest
         else
           match tokenizeGo true f (p + chunk.length) rest with
           | .error e => .error e
           | .ok toks => .ok ((p, Tok.textT (String.mk (trimChars chunk))) :: toks)) := by
  have hsplit : (chunk ++ rest).takeWhile (fun c => !(c == '<')) = chunk ∧
      (chunk ++ rest).dropWhile (fun c => !(c == '<')) = rest := by
    rcases hrest with h | ⟨r2, h⟩
    · subst h
      constructor
      · rw [List.append_nil, List.takeWhile_eq_self_iff]
        exact fun x hx => List.all_eq_true.mp hlt x hx
      · rw [List.append_nil, List.dropWhile_eq_nil_iff]
        exact fun x hx => List.all_eq_true.mp hlt x hx
    · subst h
      exact takeWhile_block _ chunk '<' r2 hlt (by decide)
  cases chunk with
  | nil => exact absurd rfl hne
  | cons c ch =>
    show tokenizeGo true (f + 1) p (c :: (ch ++ rest)) = _
    rw [tokenizeGo]
    rw [show List.takeWhile (fun x => !(x == '<')) (c :: (ch ++ rest)) = c :: ch from hsplit.1]
    rw [show List.dropWhile (fun x => !(x == '<')) (c :: (ch ++ rest)) = rest from hsplit.2]
    · rfl
    · simp
    · intro r1 hr
      injection hr with h1 _
      have h2 := List.all_eq_true.mp hlt c (by simp)
      rw [h1] at h2
      simp at h2

/-- Unpacking a well-formed name. -/
theorem wfName_unpack (s : String) (h : wfName s = true) :
    s.data ≠ [] ∧ ∀ c ∈ s.data, isNameChar c = true := by
  unfold wfName at h
  simp only [Bool.and_eq_true, Bool.not_eq_true'] at h
  exact ⟨by simpa using h.1, fun c hc => List.all_eq_true.mp h.2 c hc⟩

/-- Unpacking well-formed text. -/
theorem wfText_unpack (s : String) (h : wfText s = true) :
    s.data ≠ [] ∧ trimChars s.data = s.data ∧
      s.data.all (fun ch => !(ch == '<')) = true ∧ findBadEntity s.data = none := by
  unfold wfText at h
  simp only [Bool.and_eq_true, Bool.not_eq_true'] at h
  refine ⟨by simpa using h.1.1.1, by simpa using h.1.1.2, h.1.2, ?_⟩
  have h4 := h.2
  cases hx : findBadEntity s.data
  · rfl
  · rw [hx] at h4
    simp at h4

/-- Skipping a whitespace-only chunk before a tag or the end of input. -/
theorem tokSpec_ws (ws rest : List Char) (R : List Tok) (hws : ws.all isWs = true)
    (hrest : rest = [] ∨ ∃ r2, rest = '<' :: r2) (h : TokSpec rest R) :
    TokSpec (ws ++ rest) R := by
  cases ws with
  | nil => simpa using h
  | cons w ws2 =>
    intro f p hf
    match f, hf with
    | fu + 1, hf =>
      have hall : (w :: ws2).all (fun c => !(c == '<')) = true := by
        apply List.all_eq_true.mpr
        intro x hx
        have hxw := List.all_eq_true.mp hws x hx
        simp [(isWs_facts x hxw).2.1]
      have hstep := tokenizeGo_text_step fu p (w :: ws2) rest (by simp) hall hrest
      rw [findBadEntity_all_ws _ hws, trimChars_all_ws _ hws] at hstep
      simp only [List.isEmpty_nil, if_pos] at hstep
      obtain ⟨t, ht, hm⟩ := h fu (p + (w :: ws2).length) (by
        simp only [List.length_append, List.length_cons] at hf ⊢
        omega)
      exact ⟨t, by rw [hstep]; exact ht, hm⟩

/-- Emitting a text token: a well-formed text core padded by whitespace,
delimited by a tag or the end of input. -/
theorem tokSpec_text (ws1 ws2 rest : List Char) (s : String) (R : List Tok)
    (h1 : ws1.all isWs = true) (h2 : ws2.all isWs = true) (hs : wfText s = true)
    (hrest : rest = [] ∨ ∃ r2, rest = '<' :: r2) (h : TokSpec rest R) :
    TokSpec (ws1 ++ s.data ++ ws2 ++ rest) (Tok.textT s :: R) := by
  obtain ⟨hsne, hstrim, hslt, hfbe⟩ := wfText_unpack s hs
  intro f p hf
  match f, hf with
  | fu + 1, hf =>
    have hchne : ws1 ++ (s.data ++ ws2) ≠ [] := by
      intro hcon
      rcases List.append_eq_nil.mp hcon with ⟨_, hmid⟩
      rcases List.append_eq_nil.mp hmid with ⟨hsd, _⟩
      exact hsne hsd
    have hchlt : (ws1 ++ (s.data ++ ws2)).all (fun c => !(c == '<')) = true := by
      apply List.all_eq_true.mpr
      intro x hx
      rcases List.mem_append.mp hx with hx1 | hx2
      · simp [(isWs_facts x (List.all_eq_true.mp h1 x hx1)).2.1]
      · rcases List.mem_append.mp hx2 with hx3 | hx4
        · exact List.all_eq_true.mp hslt x hx3
        · simp [(isWs_facts x (List.all_eq_true.mp h2 x hx4)).2.1]
    have hstep := tokenizeGo_text_step fu p (ws1 ++ (s.data ++ ws2)) rest hchne hchlt hrest
    have hisnone : (findBadEntity (ws1 ++ (s.data ++ ws2))).isNone = true := by
      rw [ findBadEntity_ws_prefix _ _ h1, findBadEntity_ws_suffix _ _ h2, hfbe]
      rfl
    have hch_fbe : findBadEntity (ws1 ++ (s.data ++ ws2)) = none := by
      cases hx : findBadEntity (ws1 ++ (s.data ++ ws2))
      · rfl
      · rw [hx] at hisnone
        simp at hisnone
    have hchtrim : trimChars (ws1 ++ (s.data ++ ws2)) = s.data := by
      rw [← List.append_assoc]
      exact trimChars_pad ws1 ws2 s.data h1 h2 hstrim
    rw [hch_fbe, hchtrim] at hstep
    have hsdne : (s.data).isEmpty = false := by
      cases hx : s.data
      · exact absurd hx hsne
      · rfl
    rw [hsdne] at hstep
    simp only [Bool.false_eq_true, if_false] at hstep
    obtain ⟨t, ht, hm⟩ := h fu (p + (ws1 ++ (s.data ++ ws2)).length) (by
      have hfx := hf
      have hlen1 : 0 < s.data.length := List.length_pos.mpr hsne
      simp only [List.length_append] at hfx ⊢
      omega)
    rw [ht] at hstep
    refine ⟨(p, Tok.textT (String.mk s.data)) :: t, ?_, ?_⟩
    · rw [show ws1 ++ s.data ++ ws2 ++ rest = (ws1 ++ (s.data ++ ws2)) ++ rest by
        simp [List.append_assoc]]
      exact hstep
    · simp only [List.map_cons, hm, string_mk_data]

/-- Emitting a close-tag token. -/
theorem tokSpec_close (tag : String) (rest : List Char) (R : List Tok)
    (htag : wfName tag = true) (h : TokSpec rest R) :
    TokSpec ('<' :: '/' :: (tag.data ++ '>' :: rest)) (Tok.closeT tag :: R) := by
  obtain ⟨htne, htall⟩ := wfName_unpack tag htag
  intro f p hf
  match f, hf with
  | fu + 1, hf =>
    rw [tokenizeGo]
    have hblk := takeWhile_block isNameChar tag.data '>' rest
      (List.all_eq_true.mpr htall) (by decide)
    rw [hblk.1, hblk.2]
    have hnm : (tag.data).isEmpty = false := by
      cases hx : tag.data
      · exact absurd hx htne
      · rfl
    rw [hnm]
    simp only [Bool.false_eq_true, if_false]
    obtain ⟨t, ht, hm⟩ := h fu (p + 3 + tag.data.length) (by
      simp only [List.length_cons, List.length_append] at hf ⊢
      omega)
    rw [ht]
    exact ⟨(p, Tok.closeT (String.mk tag.data)) :: t, rfl,
      by simp only [List.map_cons, hm, string_mk_data]⟩

/-- In strict mode `parseAttrs` consumes a rendered well-formed attribute
list up to and including the closing `>`, reproducing exactly those
attributes. -/
theorem parseAttrs_render (a : List (String × String)) :
    ∀ (acc : List (String × String)) (X : List Char) (pos f : Nat),
      (renderAttrs a ++ '>' :: X).length < f →
      wfAttrs a = true →
      (∀ kv ∈ a, acc.any (fun kv2 => kv2.1 == kv.1) = false) →
      ∃ q, parseAttrs true f pos (renderAttrs a ++ '>' :: X) acc = .ok (acc ++ a, q, X) := by
  induction a with
  | nil =>
    intro acc X pos f hf _ _
    match f, hf with
    | fu + 1, _ =>
      refine ⟨pos + 1, ?_⟩
      show parseAttrs true (fu + 1) pos ([] ++ '>' :: X) acc = _
      rw [List.nil_append]
      have h1 : isWs '>' = false := by decide
      simp [parseAttrs, List.takeWhile_cons, List.dropWhile_cons, h1]
  | cons kv a2 ih =>
    rcases kv with ⟨k, v⟩
    intro acc X pos f hf hwf hdisj
    have hwfparts : wfName k = true ∧ v.data.all (fun ch => !(ch == '"')) = true ∧
        a2.all (fun kv => wfName kv.1 && kv.2.data.all (fun ch => !(ch == '"'))) = true ∧
        a2.any (fun kv2 => kv2.1 == k) = false ∧ keysDistinct a2 = true := by
      unfold wfAttrs at hwf
      simp only [List.all_cons, keysDistinct, Bool.and_eq_true, Bool.not_eq_true'] at hwf
      exact ⟨hwf.1.1.1, hwf.1.1.2, by simpa using hwf.1.2, hwf.2.1, hwf.2.2⟩
    obtain ⟨hkwf, hvq, halla2, hdk, hkd2⟩ := hwfparts
    obtain ⟨hkne, hkall⟩ := wfName_unpack k hkwf
    have hwfa2 : wfAttrs a2 = true := by
      unfold wfAttrs
      simp [halla2, hkd2]
    match f, hf with
    | fu + 1, hf =>
      have hrw : renderAttrs ((k, v) :: a2) ++ '>' :: X =
          ' ' :: (k.data ++ ('=' :: '"' :: (v.data ++
            ('"' :: (renderAttrs a2 ++ '>' :: X))))) := by
        simp [renderAttrs, List.flatMap_cons, List.append_assoc]
      cases hkdata : k.data with
      | nil => exact absurd hkdata hkne
      | cons kc kt =>
        have hkc : isNameChar kc = true := hkall kc (by rw [hkdata]; simp)
        have hkcws : isWs kc = false := isNameChar_not_ws kc hkc
        have hktall : kt.all isNameChar = true := by
          apply List.all_eq_true.mpr
          intro x hx
          exact hkall x (by rw [hkdata]; exact List.mem_cons_of_mem _ hx)
        have hblk := takeWhile_block isNameChar kt '='
          ('"' :: (v.data ++ ('"' :: (renderAttrs a2 ++ '>' :: X)))) hktall (by decide)
        have hvblk := takeWhile_block (fun ch => !(ch == '"')) v.data '"'
          (renderAttrs a2 ++ '>' :: X) hvq (by decide)
        have hT1 : List.takeWhile isWs ((kc :: kt) ++ ('=' :: '"' :: (v.data ++
            ('"' :: (renderAttrs a2 ++ '>' :: X))))) = [] := by
          rw [List.cons_append, List.takeWhile_cons, if_neg (by simp [hkcws])]
        have hD1 : List.dropWhile isWs ((kc :: kt) ++ ('=' :: '"' :: (v.data ++
            ('"' :: (renderAttrs a2 ++ '>' :: X))))) =
            (kc :: kt) ++ ('=' :: '"' :: (v.data ++
            ('"' :: (renderAttrs a2 ++ '>' :: X)))) := by
          rw [List.cons_append, List.dropWhile_cons, if_neg (by simp [hkcws])]
        have hTW2 : List.takeWhile isNameChar (kc :: (kt ++ ('=' :: '"' :: (v.data ++
            ('"' :: (renderAttrs a2 ++ '>' :: X)))))) = kc :: kt := by
          rw [List.takeWhile_cons, if_pos hkc, hblk.1]
        have hDW2 : List.dropWhile isNameChar (kc :: (kt ++ ('=' :: '"' :: (v.data ++
            ('"' :: (renderAttrs a2 ++ '>' :: X)))))) =
            '=' :: '"' :: (v.data ++ ('"' :: (renderAttrs a2 ++ '>' :: X))) := by
          rw [List.dropWhile_cons, if_pos hkc, hblk.2]
        have hWT : List.takeWhile isWs (' ' :: kc :: (kt ++ '=' :: '"' ::
            (v.data ++ '"' :: (renderAttrs a2 ++ '>' :: X)))) = [' '] := by
          rw [List.takeWhile_cons, if_pos (by decide), List.takeWhile_cons,
            if_neg (by simp [hkcws])]
        have hWD : List.dropWhile isWs (' ' :: kc :: (kt ++ '=' :: '"' ::
            (v.data ++ '"' :: (renderAttrs a2 ++ '>' :: X)))) =
            kc :: (kt ++ '=' :: '"' :: (v.data ++ '"' :: (renderAttrs a2 ++ '>' :: X))) := by
          rw [List.dropWhile_cons, if_pos (by decide), List.dropWhile_cons,
            if_neg (by simp [hkcws])]
        have hins : insertAttr acc (String.mk (kc :: kt)) (String.mk v.data) =
            acc ++ [(k, v)] := by
          rw [← hkdata, string_mk_data, string_mk_data]
          unfold insertAttr
          rw [if_neg (by simp [hdisj (k, v) (by simp)])]
        have hstep : parseAttrs true (fu + 1) pos (' ' :: (kc :: kt ++ '=' :: '"' ::
            (v.data ++ '"' :: (renderAttrs a2 ++ '>' :: X)))) acc =
            parseAttrs true fu (pos + 1 + (kc :: kt).length + 2 + v.data.length + 1)
              (renderAttrs a2 ++ '>' :: X) (acc ++ [(k, v)]) := by
          rw [parseAttrs]
          rw [show (' ' :: (kc :: kt ++ '=' :: '"' ::
              (v.data ++ '"' :: (renderAttrs a2 ++ '>' :: X)))) =
            (' ' :: kc :: (kt ++ '=' :: '"' ::
              (v.data ++ '"' :: (renderAttrs a2 ++ '>' :: X)))) by simp]
          have hkgt : ¬ kc = '>' := by
            intro hcon
            rw [hcon] at hkc
            exact absurd hkc (by decide)
          simp only [hWD, hWT, hDW2, hTW2, hvblk.1, hvblk.2, hkc, hins,
            if_true, List.length_cons]
          simp only [List.length_nil, Nat.zero_add]
        rw [hrw, hkdata, hstep]
        have hlen : (renderAttrs a2 ++ '>' :: X).length < fu := by
          rw [hrw] at hf
          simp only [List.length_cons, List.length_append] at hf ⊢
          omega
        have hdisj2 : ∀ kv2 ∈ a2,
            (acc ++ [(k, v)]).any (fun kv3 => kv3.1 == kv2.1) = false := by
          intro kv2 hkv2
          rw [List.any_append]
          have h1 := hdisj kv2 (List.mem_cons_of_mem _ hkv2)
          have h2 : (k == kv2.1) = false := by
            cases hkk : k == kv2.1
            · rfl
            · have heq : k = kv2.1 := by simpa using hkk
              have h3 : (kv2.1 == k) = true := by simp [heq]
              have h4 : a2.any (fun kv3 => kv3.1 == k) = true :=
                List.any_eq_true.mpr ⟨kv2, hkv2, h3⟩
              rw [h4] at hdk
              exact absurd hdk (by simp)
          simp [h1, h2]
        obtain ⟨q, hq⟩ := ih (acc ++ [(k, v)]) X
          (pos + 1 + (kc :: kt).length + 2 + v.data.length + 1) fu hlen hwfa2 hdisj2
        refine ⟨q, ?_⟩
        rw [hq]
        simp

/-- Emitting an open-tag token: a rendered well-formed open tag followed
by arbitrary input. -/
theorem tokSpec_open (tag : String) (a : List (String × String)) (rest : List Char)
    (R : List Tok) (htag : wfName tag = true) (ha : wfAttrs a = true)
    (h : TokSpec rest R) :
    TokSpec ('<' :: (tag.data ++ (renderAttrs a ++ '>' :: rest)))
      (Tok.openT tag a :: R) := by
  obtain ⟨htne, htall⟩ := wfName_unpack tag htag
  intro f p hf
  match f, hf with
  | fu + 1, hf =>
    cases htd : tag.data with
    | nil => exact absurd htd htne
    | cons tc tt =>
      have htc : isNameChar tc = true := htall tc (by rw [htd]; simp)
      have httall : tt.all isNameChar = true := by
        apply List.all_eq_true.mpr
        intro x hx
        exact htall x (by rw [htd]; exact List.mem_cons_of_mem _ hx)
      have hsuf : ∃ d tl, renderAttrs a ++ '>' :: rest = d :: tl ∧
          isNameChar d = false := by
        cases a with
        | nil => exact ⟨'>', rest, rfl, by decide⟩
        | cons kv a2 =>
          refine ⟨' ', kv.1.data ++ ('=' :: '"' :: (kv.2.data ++ ['"'])) ++
            (renderAttrs a2 ++ '>' :: rest), ?_, by decide⟩
          simp [renderAttrs, List.flatMap_cons, List.append_assoc]
      obtain ⟨d, tl, hdt, hdn⟩ := hsuf
      have halltag : (tc :: tt).all isNameChar = true := by
        simp [List.all_cons, htc, httall]
      have hb0 := takeWhile_block isNameChar (tc :: tt) d tl halltag hdn
      have hbT : List.takeWhile isNameChar
          (tc :: (tt ++ (renderAttrs a ++ '>' :: rest))) = tc :: tt := by
        rw [show tc :: (tt ++ (renderAttrs a ++ '>' :: rest)) =
          (tc :: tt) ++ (renderAttrs a ++ '>' :: rest) by simp, hdt]
        exact hb0.1
      have hbD : List.dropWhile isNameChar
          (tc :: (tt ++ (renderAttrs a ++ '>' :: rest))) =
          renderAttrs a ++ '>' :: rest := by
        rw [show tc :: (tt ++ (renderAttrs a ++ '>' :: rest)) =
          (tc :: tt) ++ (renderAttrs a ++ '>' :: rest) by simp, hdt]
        exact hb0.2
      obtain ⟨q, hq⟩ := parseAttrs_render a [] rest (p + 1 + (tc :: tt).length)
        ((renderAttrs a ++ '>' :: rest).length + 1) (Nat.lt_succ_self _) ha
        (fun kv _ => rfl)
      obtain ⟨t, ht, hm⟩ := h fu q (by
        simp only [List.length_cons, List.length_append] at hf ⊢
        omega)
      refine ⟨(p, Tok.openT (String.mk (tc :: tt)) a) :: t, ?_, ?_⟩
      · rw [show (tc :: tt : List Char) ++ (renderAttrs a ++ '>' :: rest) =
          tc :: (tt ++ (renderAttrs a ++ '>' :: rest)) from List.cons_append _ _ _]
        rw [tokenizeGo]
        simp only [hbT, hbD, List.isEmpty_cons, List.nil_append] at hq ⊢
        rw [hq]
        simp only [Bool.false_eq_true, if_false]
        rw [ht]
        intro rest2 hr
        injection hr with h1 _
        rw [h1] at htc
        exact absurd htc (by decide)
      · simp only [List.map_cons, hm]
        rw [show String.mk (tc :: tt) = tag by rw [← htd, string_mk_data]]

/-- Splitting the size of a forest at its head. -/
theorem sizeL_cons (t : PTree) (ts : List PTree) :
    sizeL (t :: ts) = sizeL [t] + sizeL ts := by
  cases t <;> simp [sizeL]

/-- Size of a single element. -/
theorem sizeL_elem (tg : String) (a : List (String × String)) (ks : List PTree) :
    sizeL [PTree.elem tg a ks] = 1 + sizeL ks := by
  simp [sizeL]

/-- Size of a single text node. -/
theorem sizeL_txt (s : String) : sizeL [PTree.txt s] = 1 := by
  simp [sizeL]

/-- Indentation consists of whitespace. -/
theorem spacesC_ws (n : Nat) : (spacesC n).all isWs = true := by
  apply List.all_eq_true.mpr
  intro x hx
  rw [List.eq_of_mem_replicate hx]
  decide

/-- Unfolding the renderer on an element. -/
theorem renderB_elem (ind : Nat) (tg : String) (a : List (String × String))
    (ks : List PTree) :
    renderB ind (PTree.elem tg a ks) =
      ('<' :: (tg.data ++ renderAttrs a ++ ['>'])) ++
      (match ks with
       | [] => []
       | [PTree.txt s] => s.data
       | _ => renderKidsSep (ind + 2) ks ++ ('\n' :: spacesC ind)) ++
      ('<' :: '/' :: (tg.data ++ ['>'])) := rfl

/-- Unfolding the child-sequence renderer. -/
theorem renderKidsSep_cons (ind : Nat) (t : PTree) (ts : List PTree) :
    renderKidsSep ind (t :: ts) =
      ('\n' :: spacesC ind) ++ renderB ind t ++ renderKidsSep ind ts := rfl

/-- The child-sequence renderer on the empty list. -/
theorem renderKidsSep_nil (ind : Nat) : renderKidsSep ind [] = [] := rfl

/-- The rendering of an element starts with an opening angle bracket. -/
theorem cons_append_head {α : Type} (c : α) (X B C : List α) :
    ∃ tl, ((c :: X) ++ B) ++ C = c :: tl := ⟨(X ++ B) ++ C, by simp⟩

/-- The rendering of an element starts with an opening angle bracket. -/
theorem renderB_elem_head (ind : Nat) (tg : String) (a : List (String × String))
    (ks : List PTree) :
    ∃ tl, renderB ind (PTree.elem tg a ks) = '<' :: tl := by
  rw [renderB_elem]
  exact cons_append_head '<' _ _ _

/-- Unpacking forest well-formedness at an element head. -/
theorem wfF_elem_unpack (tg : String) (a : List (String × String))
    (ks ts : List PTree) (h : wfF (PTree.elem tg a ks :: ts) = true) :
    wfName tg = true ∧ wfAttrs a = true ∧ noAdjText ks = true ∧
      wfF ks = true ∧ wfF ts = true := by
  rw [wfF] at h
  simp only [Bool.and_eq_true] at h
  exact ⟨h.1.1.1.1, h.1.1.1.2, h.1.1.2, h.1.2, h.2⟩

/-- Packing forest well-formedness at an element head. -/
theorem wfF_elem_pack (tg : String) (a : List (String × String))
    (ks ts : List PTree) (h1 : wfName tg = true) (h2 : wfAttrs a = true)
    (h3 : noAdjText ks = true) (h4 : wfF ks = true) (h5 : wfF ts = true) :
    wfF (PTree.elem tg a ks :: ts) = true := by
  rw [wfF]
  simp [h1, h2, h3, h4, h5, wfF]

/-- Unpacking forest well-formedness at a text head. -/
theorem wfF_txt_unpack (s : String) (ts : List PTree)
    (h : wfF (PTree.txt s :: ts) = true) :
    wfText s = true ∧ wfF ts = true := by
  rw [wfF] at h
  simp only [Bool.and_eq_true] at h
  exact h

/-- Joint induction: tokenizing the rendering of a well-formed element
(or of an indented well-formed child list) extends any tokenization of
the remaining input. -/
theorem renderTokSpec (n : Nat) :
    (∀ tg a ks, 2 * sizeL [PTree.elem tg a ks] ≤ n →
      ∀ ind rest R, wfF [PTree.elem tg a ks] = true → TokSpec rest R →
        TokSpec (renderB ind (PTree.elem tg a ks) ++ rest)
          (evF [PTree.elem tg a ks] ++ R)) ∧
    (∀ ts, 2 * sizeL ts + 1 ≤ n →
      ∀ ind wsE cc R, wfF ts = true → noAdjText ts = true →
        wsE.all isWs = true → (cc = [] ∨ ∃ r2, cc = '<' :: r2) →
        TokSpec cc R →
        TokSpec (renderKidsSep ind ts ++ (wsE ++ cc)) (evF ts ++ R)) := by
  induction n using Nat.strong_induction_on with
  | _ n IH =>
    have hnl : isWs '\n' = true := by decide
    constructor
    · intro tg a ks hsz ind rest R hwf hrest
      obtain ⟨htg, hwa, hna, hwk, _⟩ := wfF_elem_unpack tg a ks [] hwf
      have hclose : TokSpec ('<' :: '/' :: (tg.data ++ '>' :: rest))
          (Tok.closeT tg :: R) := tokSpec_close tg rest R htg hrest
      have hthird : ∀ ks2 : List PTree,
          sizeL ks2 ≤ sizeL ks → noAdjText ks2 = true → wfF ks2 = true →
          renderB ind (PTree.elem tg a ks) =
            ('<' :: (tg.data ++ renderAttrs a ++ ['>'])) ++
            (renderKidsSep (ind + 2) ks2 ++ ('\n' :: spacesC ind)) ++
            ('<' :: '/' :: (tg.data ++ ['>'])) →
          TokSpec (renderB ind (PTree.elem tg a ks) ++ rest)
            (Tok.openT tg a :: (evF ks2 ++ (Tok.closeT tg :: R))) := by
        intro ks2 hle hna2 hwk2 hrB2
        rw [hrB2]
        rw [show (('<' :: (tg.data ++ renderAttrs a ++ ['>'])) ++
            (renderKidsSep (ind + 2) ks2 ++ ('\n' :: spacesC ind)) ++
            ('<' :: '/' :: (tg.data ++ ['>']))) ++ rest =
          '<' :: (tg.data ++ (renderAttrs a ++ '>' ::
            (renderKidsSep (ind + 2) ks2 ++ (('\n' :: spacesC ind) ++
              ('<' :: '/' :: (tg.data ++ '>' :: rest)))))) by simp]
        apply tokSpec_open tg a _ _ htg hwa
        have h1 : sizeL [PTree.elem tg a ks] = 1 + sizeL ks := sizeL_elem tg a ks
        have hm : 2 * sizeL ks2 + 1 < n := by omega
        refine (IH _ hm).2 ks2 le_rfl (ind + 2) ('\n' :: spacesC ind)
          ('<' :: '/' :: (tg.data ++ '>' :: rest)) (Tok.closeT tg :: R) hwk2 hna2
          ?_ (Or.inr ⟨_, rfl⟩) hclose
        simp [List.all_cons, spacesC_ws, hnl]
      cases ks with
      | nil =>
        rw [show renderB ind (PTree.elem tg a []) ++ rest =
          '<' :: (tg.data ++ (renderAttrs a ++ '>' ::
            ('<' :: '/' :: (tg.data ++ '>' :: rest)))) by
          rw [renderB_elem]; simp]
        rw [show evF [PTree.elem tg a []] ++ R =
          Tok.openT tg a :: (Tok.closeT tg :: R) by simp [evF]]
        exact tokSpec_open tg a _ _ htg hwa hclose
      | cons k1 krest =>
        cases krest with
        | nil =>
          cases k1 with
          | com s => simp [wfF] at hwk
          | txt s =>
            have hws0 : wfText s = true := (wfF_txt_unpack s [] hwk).1
            rw [show renderB ind (PTree.elem tg a [PTree.txt s]) ++ rest =
              '<' :: (tg.data ++ (renderAttrs a ++ '>' ::
                (s.data ++ ('<' :: '/' :: (tg.data ++ '>' :: rest))))) by
              rw [renderB_elem]; simp]
            rw [show evF [PTree.elem tg a [PTree.txt s]] ++ R =
              Tok.openT tg a :: (Tok.textT s :: (Tok.closeT tg :: R)) by simp [evF]]
            apply tokSpec_open tg a _ _ htg hwa
            have hmid := tokSpec_text [] [] ('<' :: '/' :: (tg.data ++ '>' :: rest)) s
              (Tok.closeT tg :: R) rfl rfl hws0 (Or.inr ⟨_, rfl⟩) hclose
            simpa using hmid
          | elem tg2 a2 ks2 =>
            rw [show evF [PTree.elem tg a [PTree.elem tg2 a2 ks2]] ++ R =
              Tok.openT tg a :: (evF [PTree.elem tg2 a2 ks2] ++ (Tok.closeT tg :: R)) by
              simp [evF]]
            exact hthird [PTree.elem tg2 a2 ks2] le_rfl hna hwk rfl
        | cons k2 krest2 =>
          rw [show evF [PTree.elem tg a (k1 :: k2 :: krest2)] ++ R =
            Tok.openT tg a :: (evF (k1 :: k2 :: krest2) ++ (Tok.closeT tg :: R)) by
            simp [evF]]
          cases k1 with
          | txt s1 => exact hthird (PTree.txt s1 :: k2 :: krest2) le_rfl hna hwk rfl
          | elem t1 a1 kk1 => exact hthird _ le_rfl hna hwk rfl
          | com s1 => exact hthird _ le_rfl hna hwk rfl
    · intro ts hsz ind wsE cc R hwf hnat hwsE hcc hcspec
      have hnlws : (('\n' :: spacesC ind) : List Char).all isWs = true := by
        simp [List.all_cons, spacesC_ws, hnl]
      cases ts with
      | nil =>
        rw [show renderKidsSep ind [] ++ (wsE ++ cc) = wsE ++ cc from by
          rw [renderKidsSep_nil, List.nil_append]]
        rw [show evF ([] : List PTree) ++ R = R from by simp [evF]]
        exact tokSpec_ws wsE cc R hwsE hcc hcspec
      | cons t ts2 =>
        cases t with
        | com s => simp [wfF] at hwf
        | elem tg2 a2 ks2 =>
          obtain ⟨htg2, hwa2, hna2, hwk2, hwts2⟩ := wfF_elem_unpack tg2 a2 ks2 ts2 hwf
          have hnats2 : noAdjText ts2 = true := hnat
          have h1 : sizeL (PTree.elem tg2 a2 ks2 :: ts2) =
              sizeL [PTree.elem tg2 a2 ks2] + sizeL ts2 := sizeL_cons _ _
          have h2 : sizeL [PTree.elem tg2 a2 ks2] = 1 + sizeL ks2 :=
            sizeL_elem tg2 a2 ks2
          have hm1 : 2 * sizeL [PTree.elem tg2 a2 ks2] < n := by omega
          have hm2 : 2 * sizeL ts2 + 1 < n := by omega
          have hkids := (IH _ hm2).2 ts2 le_rfl ind wsE cc R hwts2 hnats2 hwsE hcc hcspec
          have helem := (IH _ hm1).1 tg2 a2 ks2 le_rfl ind
            (renderKidsSep ind ts2 ++ (wsE ++ cc)) (evF ts2 ++ R)
            (wfF_elem_pack tg2 a2 ks2 [] htg2 hwa2 hna2 hwk2 (by simp [wfF])) hkids
          rw [renderKidsSep_cons]
          rw [show (('\n' :: spacesC ind) ++ renderB ind (PTree.elem tg2 a2 ks2) ++
              renderKidsSep ind ts2) ++ (wsE ++ cc) =
            ('\n' :: spacesC ind) ++ (renderB ind (PTree.elem tg2 a2 ks2) ++
              (renderKidsSep ind ts2 ++ (wsE ++ cc))) by simp]
          rw [show evF (PTree.elem tg2 a2 ks2 :: ts2) ++ R =
            evF [PTree.elem tg2 a2 ks2] ++ (evF ts2 ++ R) by rw [evF_cons]; simp]
          obtain ⟨tl, htl⟩ := renderB_elem_head ind tg2 a2 ks2
          exact tokSpec_ws _ _ _ hnlws
            (Or.inr ⟨tl ++ (renderKidsSep ind ts2 ++ (wsE ++ cc)),
              by rw [htl, List.cons_append]⟩) helem
        | txt s =>
          obtain ⟨hws0, hwts2⟩ := wfF_txt_unpack s ts2 hwf
          cases ts2 with
          | nil =>
            rw [show renderKidsSep ind [PTree.txt s] ++ (wsE ++ cc) =
              ('\n' :: spacesC ind) ++ s.data ++ wsE ++ cc by
              rw [renderKidsSep_cons, renderKidsSep_nil,
                show renderB ind (PTree.txt s) = s.data from rfl]
              simp]
            rw [show evF [PTree.txt s] ++ R = Tok.textT s :: R by simp [evF]]
            exact tokSpec_text _ _ _ s _ hnlws hwsE hws0 hcc hcspec
          | cons t2 ts3 =>
            cases t2 with
            | txt s2 => simp [noAdjText] at hnat
            | com s2 => simp [wfF] at hwts2
            | elem tg2 a2 ks2 =>
              obtain ⟨htg2, hwa2, hna2, hwk2, hwts3⟩ :=
                wfF_elem_unpack tg2 a2 ks2 ts3 hwts2
              have hnats3 : noAdjText ts3 = true := hnat
              have h1 : sizeL (PTree.txt s :: PTree.elem tg2 a2 ks2 :: ts3) =
                  sizeL [PTree.txt s] + sizeL (PTree.elem tg2 a2 ks2 :: ts3) :=
                sizeL_cons _ _
              have h1b : sizeL (PTree.elem tg2 a2 ks2 :: ts3) =
                  sizeL [PTree.elem tg2 a2 ks2] + sizeL ts3 := sizeL_cons _ _
              have h1c : sizeL [PTree.txt s] = 1 := sizeL_txt s
              have h2 : sizeL [PTree.elem tg2 a2 ks2] = 1 + sizeL ks2 :=
                sizeL_elem tg2 a2 ks2
              have hm1 : 2 * sizeL [PTree.elem tg2 a2 ks2] < n := by omega
              have hm2 : 2 * sizeL ts3 + 1 < n := by omega
              have hkids := (IH _ hm2).2 ts3 le_rfl ind wsE cc R hwts3 hnats3
                hwsE hcc hcspec
              have helem := (IH _ hm1).1 tg2 a2 ks2 le_rfl ind
                (renderKidsSep ind ts3 ++ (wsE ++ cc)) (evF ts3 ++ R)
                (wfF_elem_pack tg2 a2 ks2 [] htg2 hwa2 hna2 hwk2 (by simp [wfF])) hkids
              rw [show renderKidsSep ind
                  (PTree.txt s :: PTree.elem tg2 a2 ks2 :: ts3) ++ (wsE ++ cc) =
                ('\n' :: spacesC ind) ++ s.data ++ ('\n' :: spacesC ind) ++
                  (renderB ind (PTree.elem tg2 a2 ks2) ++
                    (renderKidsSep ind ts3 ++ (wsE ++ cc))) by
                rw [renderKidsSep_cons, renderKidsSep_cons,
                  show renderB ind (PTree.txt s) = s.data from rfl]
                simp [List.append_assoc]]
              rw [show evF (PTree.txt s :: PTree.elem tg2 a2 ks2 :: ts3) ++ R =
                Tok.textT s :: (evF [PTree.elem tg2 a2 ks2] ++ (evF ts3 ++ R)) by
                simp [evF]]
              obtain ⟨tl, htl⟩ := renderB_elem_head ind tg2 a2 ks2
              exact tokSpec_text _ _ _ s _ hnlws hnlws hws0
                (Or.inr ⟨tl ++ (renderKidsSep ind ts3 ++ (wsE ++ cc)),
                  by rw [htl, List.cons_append]⟩) helem

/-- The construction pass consumes the token stream of a well-formed
forest by appending that forest to the current sibling list. -/
theorem buildToks_events (n : Nat) :
    ∀ ts : List PTree, sizeL ts ≤ n → wfF ts = true →
      ∀ ptoks rest stk cur, ptoks.map Prod.snd = evF ts →
        buildToks true (ptoks ++ rest) stk cur =
          buildToks true rest stk (cur ++ ts) := by
  induction n using Nat.strong_induction_on with
  | _ n IH =>
    intro ts hsz hwf ptoks rest stk cur hmap
    cases ts with
    | nil =>
      have hx : ptoks = [] := by
        apply List.map_eq_nil_iff.mp
        rw [hmap]
        simp [evF]
      subst hx
      simp
    | cons t ts2 =>
      have hszc : sizeL (t :: ts2) = sizeL [t] + sizeL ts2 := sizeL_cons t ts2
      cases t with
      | com s => simp [wfF] at hwf
      | txt s =>
        obtain ⟨hws, hwf2⟩ := wfF_txt_unpack s ts2 hwf
        rw [show evF (PTree.txt s :: ts2) = Tok.textT s :: evF ts2 by
          simp [evF]] at hmap
        cases ptoks with
        | nil => simp at hmap
        | cons q qs =>
          obtain ⟨qp, qv⟩ := q
          simp only [List.map_cons, List.cons.injEq] at hmap
          obtain ⟨hqv, hqs⟩ := hmap
          subst hqv
          rw [show ((qp, Tok.textT s) :: qs) ++ rest =
            (qp, Tok.textT s) :: (qs ++ rest) from rfl]
          rw [show buildToks true ((qp, Tok.textT s) :: (qs ++ rest)) stk cur =
            buildToks true (qs ++ rest) stk (cur ++ [PTree.txt s]) from rfl]
          have hst : sizeL [PTree.txt s] = 1 := sizeL_txt s
          have hm2 : sizeL ts2 < n := by omega
          rw [(IH _ hm2) ts2 le_rfl hwf2 qs rest stk (cur ++ [PTree.txt s]) hqs]
          simp
      | elem tg a ks =>
        obtain ⟨htg, hwa, hna, hwk, hwf2⟩ := wfF_elem_unpack tg a ks ts2 hwf
        rw [show evF (PTree.elem tg a ks :: ts2) =
          Tok.openT tg a :: (evF ks ++ (Tok.closeT tg :: evF ts2)) by
          simp [evF]] at hmap
        cases ptoks with
        | nil => simp at hmap
        | cons q qs =>
          obtain ⟨qp, qv⟩ := q
          simp only [List.map_cons, List.cons.injEq] at hmap
          obtain ⟨hqv, hqs⟩ := hmap
          subst hqv
          obtain ⟨pk, pr, hsplit, hmk, hmr⟩ := List.map_eq_append_iff.mp hqs
          cases pr with
          | nil => simp at hmr
          | cons qc pt =>
            obtain ⟨qcp, qcv⟩ := qc
            simp only [List.map_cons, List.cons.injEq] at hmr
            obtain ⟨hqcv, hpt⟩ := hmr
            subst hqcv
            subst hsplit
            have hse : sizeL [PTree.elem tg a ks] = 1 + sizeL ks := sizeL_elem tg a ks
            have hmks : sizeL ks < n := by omega
            have hmts : sizeL ts2 < n := by omega
            rw [show ((qp, Tok.openT tg a) ::
                (pk ++ (qcp, Tok.closeT tg) :: pt)) ++ rest =
              (qp, Tok.openT tg a) ::
                (pk ++ (((qcp, Tok.closeT tg) :: pt) ++ rest)) by simp]
            rw [show buildToks true ((qp, Tok.openT tg a) ::
                  (pk ++ (((qcp, Tok.closeT tg) :: pt) ++ rest))) stk cur =
              buildToks true (pk ++ (((qcp, Tok.closeT tg) :: pt) ++ rest))
                (⟨tg, a, qp, cur⟩ :: stk) [] from rfl]
            rw [(IH _ hmks) ks le_rfl hwk pk _ _ [] hmk]
            rw [show ((qcp, Tok.closeT tg) :: pt) ++ rest =
              (qcp, Tok.closeT tg) :: (pt ++ rest) from rfl]
            rw [show buildToks true ((qcp, Tok.closeT tg) :: (pt ++ rest))
                (⟨tg, a, qp, cur⟩ :: stk) ([] ++ ks) =
              buildToks true (pt ++ rest) stk (cur ++ [PTree.elem tg a ks]) from by
              rw [buildToks]
              simp]
            rw [(IH _ hmts) ts2 le_rfl hwf2 pt rest stk _ hpt]
            simp

/-- Formatting a well-formed document and strictly re-parsing the result
reproduces the document. -/
theorem parse_format (d : PTree) (hd : wfDoc d = true) :
    parse (format d) DocKind.xml = .ok d := by
  cases d with
  | txt s => simp [wfDoc, isElem] at hd
  | com s => simp [wfDoc, isElem] at hd
  | elem tg a ks =>
    have hwf : wfF [PTree.elem tg a ks] = true := by
      unfold wfDoc at hd
      simp only [Bool.and_eq_true] at hd
      exact hd.2
    have hspec : TokSpec (renderB 0 (PTree.elem tg a ks))
        (evF [PTree.elem tg a ks]) := by
      have h := (renderTokSpec (2 * sizeL [PTree.elem tg a ks])).1 tg a ks
        le_rfl 0 [] [] hwf tokSpec_nil
      simpa using h
    obtain ⟨t, ht, hm⟩ := hspec ((renderB 0 (PTree.elem tg a ks)).length + 1) 0
      (Nat.lt_succ_self _)
    have hparse : parse (format (PTree.elem tg a ks)) DocKind.xml =
        (match tokenize true 0 (renderB 0 (PTree.elem tg a ks)) with
         | .error e => .error e
         | .ok toks =>
           match buildToks true toks [] [] with
           | .error e => .error e
           | .ok roots =>
             match roots with
             | [PTree.elem t2 a2 ks2] => .ok (PTree.elem t2 a2 ks2)
             | [] => .error ⟨"missing root element", 0⟩
             | [_] => .error ⟨"root is not an element", 0⟩
             | _ => .error ⟨"multiple root nodes", 0⟩) := rfl
    rw [hparse]
    rw [show tokenize true 0 (renderB 0 (PTree.elem tg a ks)) =
      tokenizeGo true ((renderB 0 (PTree.elem tg a ks)).length + 1) 0
        (renderB 0 (PTree.elem tg a ks)) from rfl]
    rw [ht]
    have hb := buildToks_events (sizeL [PTree.elem tg a ks]) [PTree.elem tg a ks]
      le_rfl hwf t [] [] [] hm
    have hb2 : buildToks true t [] [] = .ok [PTree.elem tg a ks] := by
      have hx := hb
      simp only [List.append_nil, List.nil_append] at hx
      rw [hx]
      rfl
    simp only [hb2]

/-- Decomposing a list around its trailing block of satisfying elements. -/
theorem rdropWhile_append_rtakeWhile (p : Char → Bool) (l : List Char) :
    List.rdropWhile p l ++ List.rtakeWhile p l = l := by
  rw [List.rdropWhile, List.rtakeWhile, ← List.reverse_append,
    List.takeWhile_append_dropWhile, List.reverse_reverse]

/-- Trimming only removes elements. -/
theorem trimChars_subset (cs : List Char) : ∀ x ∈ trimChars cs, x ∈ cs := by
  intro x hx
  unfold trimChars at hx
  have h1 := ( List.rdropWhile_prefix isWs (cs.dropWhile isWs)).sublist.subset hx
  exact (List.dropWhile_sublist isWs).subset h1

/-- Mapping a key-preserving function keeps attribute keys distinct. -/
theorem keysDistinct_map (f : String × String → String × String)
    (hf : ∀ kv, (f kv).1 = kv.1) :
    ∀ l : List (String × String), keysDistinct (l.map f) = keysDistinct l := by
  intro l
  induction l with
  | nil => rfl
  | cons kv rest ih =>
    simp only [List.map_cons]
    rw [show keysDistinct (f kv :: List.map f rest) =
      (!((List.map f rest).any (fun kv2 => kv2.1 == (f kv).1)) &&
        keysDistinct (List.map f rest)) from rfl]
    rw [show keysDistinct (kv :: rest) =
      (!(rest.any (fun kv2 => kv2.1 == kv.1)) && keysDistinct rest) from rfl]
    rw [ih, List.any_map]
    have hfun : ((fun kv2 => kv2.1 == (f kv).1) ∘ f) =
        (fun kv2 : String × String => kv2.1 == kv.1) := by
      funext kv2
      simp [Function.comp, hf]
    rw [hfun]

/-- Appending a fresh key keeps attribute keys distinct. -/
theorem keysDistinct_append_one (l : List (String × String)) (k v : String)
    (hl : keysDistinct l = true) (hn : l.any (fun kv => kv.1 == k) = false) :
    keysDistinct (l ++ [(k, v)]) = true := by
  induction l with
  | nil => rfl
  | cons kv rest ih =>
    rw [List.cons_append]
    rw [show keysDistinct ((kv :: (rest ++ [(k, v)]))) =
      (!((rest ++ [(k, v)]).any (fun kv2 => kv2.1 == kv.1)) &&
        keysDistinct (rest ++ [(k, v)])) from rfl]
    rw [show keysDistinct (kv :: rest) =
      (!(rest.any (fun kv2 => kv2.1 == kv.1)) && keysDistinct rest) from rfl] at hl
    simp only [Bool.and_eq_true, Bool.not_eq_true'] at hl
    simp only [List.any_cons, Bool.or_eq_false_iff] at hn
    have hk1 : (k == kv.1) = false := by
      cases hx : k == kv.1
      · rfl
      · have : k = kv.1 := by simpa using hx
        rw [show (kv.1 == k) = true by simp [this]] at hn
        exact absurd hn.1 (by simp)
    rw [List.any_append]
    simp only [List.any_cons, List.any_nil, Bool.or_eq_true, Bool.and_eq_true,
      Bool.not_eq_true']
    refine ⟨by simp [hl.1, hk1], ih hl.2 hn.2⟩

/-- Attribute insertion preserves attribute-list well-formedness when the
inserted name is well-formed and the value is free of double quotes. -/
theorem insertAttr_wf (acc : List (String × String)) (k v : String)
    (hacc : wfAttrs acc = true) (hk : wfName k = true)
    (hv : (v.data.all fun ch => !(ch == '"')) = true) :
    wfAttrs (insertAttr acc k v) = true := by
  unfold wfAttrs at hacc ⊢
  simp only [Bool.and_eq_true] at hacc
  obtain ⟨hall, hkd⟩ := hacc
  unfold insertAttr
  split
  · simp only [Bool.and_eq_true]
    constructor
    · apply List.all_eq_true.mpr
      intro kv2 hkv2
      obtain ⟨kv, hkv, hfkv⟩ := List.mem_map.mp hkv2
      have horig := List.all_eq_true.mp hall kv hkv
      simp only [Bool.and_eq_true] at horig
      rw [← hfkv]
      cases hx : kv.1 == k
      · simp only [hx, Bool.false_eq_true, if_false, Bool.and_eq_true]
        exact horig
      · simp only [hx, if_true, Bool.and_eq_true]
        exact ⟨horig.1, hv⟩
    · rw [keysDistinct_map _ (fun kv => by split <;> rfl)]
      exact hkd
  · simp only [Bool.and_eq_true]
    constructor
    · rw [List.all_append]
      simp only [Bool.and_eq_true]
      refine ⟨hall, ?_⟩
      simp [hk, hv]
    · apply keysDistinct_append_one acc k v hkd
      rename_i hne
      cases hx : acc.any fun kv => kv.1 == k
      · rfl
      · exact absurd hx hne

/-- Strict attribute parsing produces a well-formed attribute list from a
well-formed accumulator. -/
theorem parseAttrs_wf (fuel : Nat) :
    ∀ pos cs acc res q rest2,
      parseAttrs true fuel pos cs acc = .ok (res, q, rest2) →
      wfAttrs acc = true → wfAttrs res = true := by
  induction fuel with
  | zero =>
    intro pos cs acc res q rest2 h hacc
    rw [parseAttrs] at h
    simp at h
  | succ fu ih =>
    intro pos cs acc res q rest2 h hacc
    rw [parseAttrs] at h
    split at h
    · simp at h
    · simp only [Except.ok.injEq, Prod.mk.injEq] at h
      obtain ⟨h1, _, _⟩ := h
      rw [← h1]
      exact hacc
    · rename_i cs1x cx tailx hgtx heqx
      split at h
      · rename_i hnc
        simp only [] at h
        split at h
        · rename_i restx heqcs2x
          split at h
          · rename_i rest2x heqcs3x
            refine ih _ _ _ _ _ _ h ?_
            apply insertAttr_wf _ _ _ hacc ?_ ?_
            · rw [show String.mk (List.takeWhile isNameChar (List.dropWhile isWs cs)) =
                String.mk (List.takeWhile isNameChar (cx :: tailx)) by rw [heqx]]
              rw [List.takeWhile_cons, if_pos hnc]
              unfold wfName
              simp only [Bool.and_eq_true]
              refine ⟨by simp, ?_⟩
              apply List.all_eq_true.mpr
              intro x hx
              rcases List.mem_cons.mp hx with h1 | h2
              · rw [h1]; exact hnc
              · exact List.mem_takeWhile_imp h2
            · apply List.all_eq_true.mpr
              intro x hx
              have hx2 : x ∈ List.takeWhile (fun ch => !(ch == '"')) restx := hx
              have hx3 := List.mem_takeWhile_imp hx2
              simpa using hx3
          · simp at h
        · simp at h
      · simp at h

/-- Prepending a token that keeps the no-adjacent-text invariant. -/
theorem noAdjTT_cons (x : Tok) (l : List Tok)
    (hadj : noAdjTT l = true)
    (hx : isTextTok x = false ∨ l = [] ∨
      ∃ y l2, l = y :: l2 ∧ isTextTok y = false) :
    noAdjTT (x :: l) = true := by
  cases x with
  | openT tg a =>
    cases l with
    | nil => rfl
    | cons y l2 => cases y <;> simpa [noAdjTT] using hadj
  | closeT tg =>
    cases l with
    | nil => rfl
    | cons y l2 => cases y <;> simpa [noAdjTT] using hadj
  | textT s =>
    rcases hx with hx | hx | ⟨y, l2, hl, hy⟩
    · simp [isTextTok] at hx
    · rw [hx]
      rfl
    · subst hl
      cases y with
      | textT s2 => simp [isTextTok] at hy
      | openT tg a => simpa [noAdjTT] using hadj
      | closeT tg => simpa [noAdjTT] using hadj

/-- A well-formed name read by the tokenizer. -/
theorem wfName_takeWhile (l : List Char)
    (hne : (List.takeWhile isNameChar l).isEmpty = false) :
    wfName (String.mk (List.takeWhile isNameChar l)) = true := by
  unfold wfName
  simp only [Bool.and_eq_true]
  constructor
  · simpa using hne
  · apply List.all_eq_true.mpr
    intro x hx
    have hx2 : x ∈ List.takeWhile isNameChar l := hx
    exact List.mem_takeWhile_imp hx2

/-- The trimmed text chunk emitted by the strict tokenizer is
well-formed text. -/
theorem wfText_of_chunk (chunk : List Char)
    (hall : chunk.all (fun ch => !(ch == '<')) = true)
    (hfbe : findBadEntity chunk = none)
    (hne : (trimChars chunk).isEmpty = false) :
    wfText (String.mk (trimChars chunk)) = true := by
  unfold wfText
  simp only [Bool.and_eq_true]
  refine ⟨⟨⟨by simpa using hne, ?_⟩, ?_⟩, ?_⟩
  · show (trimChars (trimChars chunk) == trimChars chunk) = true
    simp [trimChars_idem]
  · apply List.all_eq_true.mpr
    intro x hx
    have hx2 : x ∈ trimChars chunk := hx
    have hx3 := trimChars_subset chunk x hx2
    exact List.all_eq_true.mp hall x hx3
  · show (findBadEntity (trimChars chunk)).isNone = true
    have h1 : (findBadEntity chunk).isNone = true := by
      rw [hfbe]
      rfl
    have htw : (List.takeWhile isWs chunk).all isWs = true := by
      apply List.all_eq_true.mpr
      intro x hx
      exact List.mem_takeWhile_imp hx
    have hrtw : (List.rtakeWhile isWs (List.dropWhile isWs chunk)).all isWs = true := by
      apply List.all_eq_true.mpr
      intro x hx
      exact List.mem_rtakeWhile_imp hx
    have hdec1 : chunk = List.takeWhile isWs chunk ++ List.dropWhile isWs chunk :=
      (List.takeWhile_append_dropWhile isWs chunk).symm
    have hdec2 : List.dropWhile isWs chunk =
        trimChars chunk ++ List.rtakeWhile isWs (List.dropWhile isWs chunk) := by
      unfold trimChars
      exact (rdropWhile_append_rtakeWhile isWs (List.dropWhile isWs chunk)).symm
    rw [hdec1, findBadEntity_ws_prefix _ _ htw, hdec2,
      findBadEntity_ws_suffix _ _ hrtw] at h1
    exact h1

/-- The head of a dropWhile result violates the predicate. -/
theorem dropWhile_head_not (p : Char → Bool) :
    ∀ l d dr, List.dropWhile p l = d :: dr → p d = false := by
  intro l
  induction l with
  | nil =>
    intro d dr h
    simp at h
  | cons x xs ih =>
    intro d dr h
    rw [List.dropWhile_cons] at h
    by_cases hp : p x = true
    · rw [if_pos hp] at h
      exact ih d dr h
    · rw [if_neg hp] at h
      injection h with h1 _
      rw [← h1]
      cases hx2 : p x
      · rfl
      · exact absurd hx2 hp

/-- Every token stream produced by the strict tokenizer consists of
well-formed tokens, has no adjacent text tokens, and does not start with
a text token when the input starts at a tag boundary or is empty. -/
theorem tokenizeGo_wf (fuel : Nat) :
    ∀ pos cs t, tokenizeGo true fuel pos cs = .ok t →
      (∀ q ∈ t, tokWf q.2 = true) ∧ noAdjTT (t.map Prod.snd) = true ∧
      ((cs = [] ∨ ∃ r, cs = '<' :: r) →
        t = [] ∨ ∃ q t2, t = q :: t2 ∧ isTextTok q.2 = false) := by
  induction fuel with
  | zero =>
    intro pos cs t h
    rw [tokenizeGo] at h
    simp at h
  | succ fu ih =>
    intro pos cs t h
    cases cs with
    | nil =>
      rw [tokenizeGo] at h
      have ht : t = [] := by
        simpa using h.symm
      subst ht
      refine ⟨by simp, by rfl, fun _ => Or.inl rfl⟩
    | cons c cr =>
      by_cases hc : c = '<'
      · subst hc
        cases cr with
        | nil =>
          rw [tokenizeGo] at h
          · simp at h
          · simp
        | cons c2 r2 =>
          by_cases hc2 : c2 = '/'
          · subst hc2
            rw [tokenizeGo] at h
            simp only [] at h
            split at h
            · simp at h
            · split at h
              · rename_i rest4x heqr3
                split at h
                · simp at h
                · rename_i toksx heqrec
                  obtain ⟨ihwf, ihadj, ihhead⟩ := ih _ _ _ heqrec
                  have ht : t = (pos, Tok.closeT
                      (String.mk (List.takeWhile isNameChar r2))) :: toksx := by
                    simpa using h.symm
                  subst ht
                  refine ⟨?_, ?_, ?_⟩
                  · intro q hq
                    rcases List.mem_cons.mp hq with h1 | h2
                    · rw [h1]
                      simpa [tokWf] using wfName_takeWhile r2 (by
                        cases hx : (List.takeWhile isNameChar r2).isEmpty
                        · rfl
                        · exact absurd hx (by assumption))
                    · exact ihwf q h2
                  · simp only [List.map_cons]
                    exact noAdjTT_cons _ _ ihadj (Or.inl rfl)
                  · intro _
                    exact Or.inr ⟨_, _, rfl, rfl⟩
              · simp at h
          · rw [tokenizeGo] at h
            · simp only [] at h
              split at h
              · simp at h
              · split at h
                · simp at h
                · rename_i attrsx pos2x rest3x heqpa
                  split at h
                  · simp at h
                  · rename_i toksx heqrec
                    obtain ⟨ihwf, ihadj, ihhead⟩ := ih _ _ _ heqrec
                    have ht : t = (pos, Tok.openT
                        (String.mk (List.takeWhile isNameChar (c2 :: r2))) attrsx)
                        :: toksx := by
                      simpa using h.symm
                    subst ht
                    refine ⟨?_, ?_, ?_⟩
                    · intro q hq
                      rcases List.mem_cons.mp hq with h1 | h2
                      · rw [h1]
                        show tokWf (Tok.openT
                          (String.mk (List.takeWhile isNameChar (c2 :: r2))) attrsx) = true
                        unfold tokWf
                        simp only [Bool.and_eq_true]
                        constructor
                        · exact wfName_takeWhile (c2 :: r2) (by
                            cases hx : (List.takeWhile isNameChar (c2 :: r2)).isEmpty
                            · rfl
                            · exact absurd hx (by assumption))
                        · exact parseAttrs_wf _ _ _ [] _ _ _ heqpa rfl
                      · exact ihwf q h2
                    · simp only [List.map_cons]
                      exact noAdjTT_cons _ _ ihadj (Or.inl rfl)
                    · intro _
                      exact Or.inr ⟨_, _, rfl, rfl⟩
            · intro r hr
              injection hr with h1 _
              exact hc2 h1
      · rw [tokenizeGo] at h
        · simp only [] at h
          split at h
          · simp at h
          · rename_i heqfbe
            split at h
            · obtain ⟨ihwf, ihadj, ihhead⟩ := ih _ _ _ h
              refine ⟨ihwf, ihadj, ?_⟩
              intro hcs
              rcases hcs with h1 | ⟨r, h1⟩
              · exact absurd h1 (by simp)
              · injection h1 with h2 _
                exact absurd h2 hc
            · split at h
              · simp at h
              · rename_i toksx heqrec
                obtain ⟨ihwf, ihadj, ihhead⟩ := ih _ _ _ heqrec
                have ht : t = (pos, Tok.textT (String.mk
                    (trimChars (List.takeWhile (fun ch => !(ch == '<')) (c :: cr)))))
                    :: toksx := by
                  simpa using h.symm
                subst ht
                have hallch : (List.takeWhile (fun ch => !(ch == '<'))
                    (c :: cr)).all (fun ch => !(ch == '<')) = true := by
                  apply List.all_eq_true.mpr
                  intro x hx
                  have hx2 := List.mem_takeWhile_imp hx
                  simpa using hx2
                have hfbe2 : findBadEntity
                    (List.takeWhile (fun ch => !(ch == '<')) (c :: cr)) = none := by
                  simpa using heqfbe
                have hrestsh : List.dropWhile (fun ch => !(ch == '<')) (c :: cr) = [] ∨
                    ∃ r, List.dropWhile (fun ch => !(ch == '<')) (c :: cr) = '<' :: r := by
                  cases hx : List.dropWhile (fun ch => !(ch == '<')) (c :: cr) with
                  | nil => exact Or.inl rfl
                  | cons d dr =>
                    refine Or.inr ⟨dr, ?_⟩
                    have hd2 : (fun ch => !(ch == '<')) d = false :=
                      dropWhile_head_not _ _ _ _ hx
                    have hd3 : d = '<' := by simpa using hd2
                    subst hd3
                    rfl
                refine ⟨?_, ?_, ?_⟩
                · intro q hq
                  rcases List.mem_cons.mp hq with h1 | h2
                  · rw [h1]
                    show tokWf (Tok.textT (String.mk
                      (trimChars (List.takeWhile (fun ch => !(ch == '<')) (c :: cr))))) = true
                    unfold tokWf
                    apply wfText_of_chunk _ hallch hfbe2
                    cases hx : (trimChars (List.takeWhile (fun ch => !(ch == '<'))
                        (c :: cr))).isEmpty
                    · rfl
                    · exact absurd hx (by assumption)
                  · exact ihwf q h2
                · simp only [List.map_cons]
                  apply noAdjTT_cons _ _ ihadj
                  rcases ihhead hrestsh with h1 | ⟨q, t2, hts, hq⟩
                  · right
                    left
                    rw [h1]
                    rfl
                  · right
                    right
                    exact ⟨q.2, t2.map Prod.snd, by rw [hts]; rfl, hq⟩
                · intro hcs
                  rcases hcs with h1 | ⟨r, h1⟩
                  · exact absurd h1 (by simp)
                  · injection h1 with h2 _
                    exact absurd h2 hc
        · simp
        · intro r hr
          injection hr with h1 _
          exact hc h1

/-- Dropping the head of a stream with no adjacent text tokens. -/
theorem noAdjTT_tail (x : Tok) (l : List Tok) (h : noAdjTT (x :: l) = true) :
    noAdjTT l = true := by
  cases x <;>
    (cases l with
     | nil => rfl
     | cons y l2 =>
       cases y <;> first
         | exact h
         | simp [noAdjTT] at h)

/-- After a text token, a stream with no adjacent text tokens continues
with a non-text token or ends. -/
theorem noAdjTT_text_head (s : String) (l : List Tok)
    (h : noAdjTT (Tok.textT s :: l) = true) :
    l = [] ∨ ∃ y l2, l = y :: l2 ∧ isTextTok y = false := by
  cases l with
  | nil => exact Or.inl rfl
  | cons y l2 =>
    cases y with
    | textT s2 => simp [noAdjTT] at h
    | openT tg a => exact Or.inr ⟨_, _, rfl, rfl⟩
    | closeT tg => exact Or.inr ⟨_, _, rfl, rfl⟩

/-- The strict construction pass yields a well-formed forest from a
well-formed token stream. -/
theorem buildToks_wf :
    ∀ ptoks stk cur roots,
      buildToks true ptoks stk cur = .ok roots →
      (∀ q ∈ ptoks, tokWf q.2 = true) →
      noAdjTT (ptoks.map Prod.snd) = true →
      (∀ fr ∈ stk, wfName fr.tag = true ∧ wfAttrs fr.attrs = true ∧
        wfF fr.saved = true ∧ noAdjText fr.saved = true) →
      wfF cur = true → noAdjText cur = true →
      (lastIsText cur = true →
        ptoks.map Prod.snd = [] ∨
          ∃ y l2, ptoks.map Prod.snd = y :: l2 ∧ isTextTok y = false) →
      wfF roots = true ∧ noAdjText roots = true := by
  intro ptoks
  induction ptoks with
  | nil =>
    intro stk cur roots h hwt hadj hstk hwfc hnac hlast
    cases stk with
    | nil =>
      have hr : roots = cur := by
        rw [buildToks] at h
        simpa using h.symm
      subst hr
      exact ⟨hwfc, hnac⟩
    | cons fr stk2 =>
      rw [buildToks] at h
      simp at h
  | cons q rest ih =>
    intro stk cur roots h hwt hadj hstk hwfc hnac hlast
    obtain ⟨p, tok⟩ := q
    have hwhead : tokWf tok = true := hwt (p, tok) (by simp)
    have hwt2 : ∀ q2 ∈ rest, tokWf q2.2 = true :=
      fun q2 hq2 => hwt q2 (List.mem_cons_of_mem _ hq2)
    have hadj2 : noAdjTT (rest.map Prod.snd) = true := by
      apply noAdjTT_tail tok
      simpa using hadj
    cases tok with
    | openT tg a =>
      have hstep : buildToks true ((p, Tok.openT tg a) :: rest) stk cur =
          buildToks true rest (⟨tg, a, p, cur⟩ :: stk) [] := rfl
      rw [hstep] at h
      unfold tokWf at hwhead
      simp only [Bool.and_eq_true] at hwhead
      refine ih _ _ _ h hwt2 hadj2 ?_ (by simp [wfF]) rfl ?_
      · intro fr hfr
        rcases List.mem_cons.mp hfr with h1 | h2
        · rw [h1]
          exact ⟨hwhead.1, hwhead.2, hwfc, hnac⟩
        · exact hstk fr h2
      · intro hl
        exact Bool.noConfusion hl
    | closeT tg =>
      cases stk with
      | nil =>
        rw [buildToks] at h
        simp at h
      | cons fr stk2 =>
        rw [buildToks] at h
        split at h
        · rename_i htag
          obtain ⟨hfrt, hfra, hfrs, hfrn⟩ := hstk fr (by simp)
          refine ih _ _ _ h hwt2 hadj2
            (fun fr2 hfr2 => hstk fr2 (List.mem_cons_of_mem _ hfr2)) ?_ ?_ ?_
          · rw [wfF_append]
            simp only [Bool.and_eq_true]
            exact ⟨hfrs, wfF_elem_pack _ _ _ _ hfrt hfra hnac hwfc (by simp [wfF])⟩
          · exact noAdjText_append_not_text _ _ hfrn rfl
          · intro hl
            rw [lastIsText_append] at hl
            simp [isText] at hl
        · split at h
          · simp at h
          · exact absurd rfl (by assumption)
    | textT s2 =>
      have hstep : buildToks true ((p, Tok.textT s2) :: rest) stk cur =
          buildToks true rest stk (cur ++ [PTree.txt s2]) := rfl
      rw [hstep] at h
      have hl2 : lastIsText cur = false := by
        cases hx : lastIsText cur
        · rfl
        · rcases hlast hx with h1 | ⟨y, l2, hyl, hy⟩
          · simp at h1
          · simp only [List.map_cons, List.cons.injEq] at hyl
            rw [← hyl.1] at hy
            simp [isTextTok] at hy
      refine ih _ _ _ h hwt2 hadj2 hstk ?_ ?_ ?_
      · rw [wfF_append]
        simp only [Bool.and_eq_true]
        refine ⟨hwfc, ?_⟩
        simp only [wfF, Bool.and_eq_true]
        exact ⟨hwhead, trivial⟩
      · exact noAdjText_append_last _ _ hnac hl2
      · intro _
        apply noAdjTT_text_head s2
        simpa using hadj

/-- A strictly parsed document is well-formed. -/
theorem parse_wf (s : String) (d : PTree) (h : parse s DocKind.xml = .ok d) :
    wfDoc d = true := by
  have hparse : parse s DocKind.xml =
      (match tokenize true 0 s.data with
       | .error e => .error e
       | .ok toks =>
         match buildToks true toks [] [] with
         | .error e => .error e
         | .ok roots =>
           match roots with
           | [PTree.elem t2 a2 ks2] => .ok (PTree.elem t2 a2 ks2)
           | [] => .error ⟨"missing root element", 0⟩
           | [_] => .error ⟨"root is not an element", 0⟩
           | _ => .error ⟨"multiple root nodes", 0⟩) := rfl
  rw [hparse] at h
  split at h
  · simp at h
  · rename_i toks heqtok
    split at h
    · simp at h
    · rename_i roots heqb
      obtain ⟨hwtoks, hadj, _⟩ := tokenizeGo_wf (s.data.length + 1) 0 s.data toks heqtok
      obtain ⟨hwfr, hnar⟩ := buildToks_wf toks [] [] roots heqb hwtoks hadj
        (fun fr hfr => absurd hfr (by simp)) (by simp [wfF]) rfl
        (fun hl => absurd hl (by simp [lastIsText]))
      split at h
      · rename_i t2 a2 ks2
        have hd : d = PTree.elem t2 a2 ks2 := by simpa using h.symm
        subst hd
        unfold wfDoc
        simp only [Bool.and_eq_true]
        exact ⟨rfl, hwfr⟩
      · simp at h
      · simp at h
      · simp at h

/-- C3: for every well-formed XML input — every input the strict parser
accepts — formatting the parsed document and parsing the formatted text
again strictly yields a document equal to the first parse: same tag
names, same attributes, same text, same tree shape. -/
theorem format_reparse (s : String) (d : PTree)
    (h : parse s DocKind.xml = .ok d) :
    parse (format d) DocKind.xml = .ok d :=
  parse_format d (parse_wf s d h)

theorem format_reparse_witness :
    parse "<root><child>value</child></root>" DocKind.xml = .ok sampleDoc ∧
    parse (format sampleDoc) DocKind.xml = .ok sampleDoc :=
  ⟨rfl, format_reparse "<root><child>value</child></root>" sampleDoc rfl⟩

/-- A success witness can be extracted from the success flag. -/
theorem isOkE_exists {ε α : Type} (e : Except ε α) (h : isOkE e = true) :
    ∃ v, e = .ok v := by
  cases e with
  | ok v => exact ⟨v, rfl⟩
  | error e2 => simp [isOkE] at h

/-- Lenient attribute parsing never fails. -/
theorem parseAttrs_lenient_total (fuel : Nat) :
    ∀ pos cs acc, isOkE (parseAttrs false fuel pos cs acc) = true := by
  induction fuel with
  | zero =>
    intro pos cs acc
    rw [parseAttrs]
    rfl
  | succ fu ih =>
    intro pos cs acc
    rw [parseAttrs]
    split
    · rfl
    · rfl
    · split
      · split
        · rename_i hff
          exact absurd hff (by simp)
        · simp only []
          split
          · split
            · exact ih _ _ _
            · rfl
          · split
            · rfl
            · rfl
      · split
        · rename_i hff
          exact absurd hff (by simp)
        · simp only []
          split
          · rfl
          · rfl

/-- Lenient tokenizing never fails. -/
theorem tokenizeGo_lenient_total (fuel : Nat) :
    ∀ pos cs, isOkE (tokenizeGo false fuel pos cs) = true := by
  induction fuel with
  | zero =>
    intro pos cs
    rw [tokenizeGo]
    rfl
  | succ fu ih =>
    intro pos cs
    cases cs with
    | nil =>
      rw [tokenizeGo]
      rfl
    | cons c cr =>
      by_cases hc : c = '<'
      · subst hc
        cases cr with
        | nil =>
          rw [tokenizeGo]
          · rfl
          · simp
        | cons c2 r2 =>
          by_cases hc2 : c2 = '/'
          · subst hc2
            rw [tokenizeGo]
            split
            · split
              · rename_i hff
                exact absurd hff (by simp)
              · simp only []
                split
                · exact ih _ _
                · rfl
            · split
              · obtain ⟨toks, htoks⟩ := isOkE_exists _ (ih _ _)
                rw [htoks]
                rfl
              · split
                · rename_i hff
                  exact absurd hff (by simp)
                · simp only []
                  split
                  · exact ih _ _
                  · rfl
          · rw [tokenizeGo]
            · split
              · split
                · rename_i hff
                  exact absurd hff (by simp)
                · simp only []
                  split
                  · exact ih _ _
                  · rfl
              · obtain ⟨r3, hr3⟩ := isOkE_exists _ (parseAttrs_lenient_total _ _ _ [])
                rw [hr3]
                obtain ⟨attrs2, pos2, rest3⟩ := r3
                obtain ⟨toks, htoks⟩ := isOkE_exists _ (ih pos2 rest3)
                simp [isOkE, htoks]
            · intro r hr
              injection hr with h1 _
              exact hc2 h1
      · rw [tokenizeGo]
        · split
          · rename_i k hk
            simp at hk
          · split
            · rename_i e2 herec
              have hok := ih (pos + (List.takeWhile (fun ch => !(ch == '<')) (c :: cr)).length)
                (List.dropWhile (fun ch => !(ch == '<')) (c :: cr))
              rw [herec] at hok
              simp [isOkE] at hok
            · rename_i toks2 herec
              simp only []
              split
              · rw [herec]
                rfl
              · rfl
        · simp
        · intro r hr
          injection hr with h1 _
          exact hc h1

/-- Lenient tree construction never fails. -/
theorem buildToks_lenient_total :
    ∀ ptoks stk cur, isOkE (buildToks false ptoks stk cur) = true := by
  intro ptoks
  induction ptoks with
  | nil =>
    intro stk cur
    cases stk with
    | nil => rfl
    | cons fr stk2 =>
      rw [buildToks]
      rfl
  | cons q rest ih =>
    intro stk cur
    obtain ⟨p, tok⟩ := q
    cases tok with
    | openT tg a => exact ih _ _
    | closeT tg =>
      cases stk with
      | nil =>
        rw [buildToks]
        exact ih _ _
      | cons fr stk2 =>
        rw [buildToks]
        split
        · exact ih _ _
        · exact ih _ _
    | textT s2 => exact ih _ _

/-- Lenient parsing never fails. -/
theorem parse_lenient_total (s : String) :
    isOkE (parse s DocKind.html) = true := by
  have hparse : parse s DocKind.html =
      (match tokenize false 0 s.data with
       | .error e => .error e
       | .ok toks =>
         match buildToks false toks [] [] with
         | .error e => .error e
         | .ok roots =>
           match roots with
           | [PTree.elem t2 a2 ks2] => .ok (PTree.elem t2 a2 ks2)
           | rs => .ok (PTree.elem "root" [] rs)) := rfl
  rw [hparse]
  obtain ⟨toks, htoks⟩ := isOkE_exists _ (tokenizeGo_lenient_total (s.data.length + 1) 0 s.data)
  rw [show tokenize false 0 s.data =
    tokenizeGo false (s.data.length + 1) 0 s.data from rfl, htoks]
  obtain ⟨roots, hroots⟩ := isOkE_exists _ (buildToks_lenient_total toks [] [])
  simp only [hroots]
  split
  · rfl
  · rfl

/-- C6: parsing is total in Html mode — malformed markup is repaired or
ignored and ParseError is never raised — while strict Xml parsing fails
with a ParseError carrying a reason and byte offset on structurally
invalid input: an unterminated tag, a mismatched close tag, and an
invalid entity. -/
theorem parse_error_policy :
    (∀ s : String, isOkE (parse s DocKind.html) = true) ∧
    parse "<a>" DocKind.xml = .error ⟨"unterminated tag", 0⟩ ∧
    parse "<a></b>" DocKind.xml = .error ⟨"mismatched close tag", 3⟩ ∧
    parse "<a>&zz;</a>" DocKind.xml = .error ⟨"invalid entity", 3⟩ :=
  ⟨parse_lenient_total, rfl, rfl, rfl⟩

end Rxq
